import Mathlib

/-!
# Verification of the Dynamic_Workflow execution engine

Shallow embedding of the core execution engine of the workflow
orchestrator:

* `DependencyResolver.topological_sort` and `DependencyResolver.validate_workflow`
  (`domain/services/dependency_resolver.py`), with Python `dict` /
  `defaultdict(int)` semantics modelled by insertion-ordered association
  lists over `Int`;
* `DynamicAgentExecutor.execute_agent_with_retry`, `execute_agent`,
  `_is_execution_successful` (`infrastructure/agents/agent_executor.py`);
* `ExecutionService.execute_workflow`, `_build_agent_input`,
  `_get_error_signature` (`application/services/execution_service.py`);
* `ToolRegistry._sanitize_collection_name` and `cleanup_tools`
  (`infrastructure/tools/tool_registry.py`);
* `ServiceManager._find_available_port` and `stop_service`
  (`infrastructure/services/service_manager.py`).

External collaborators (the LLM call, MongoDB persistence, the OS socket
bind, psutil process control) are modelled as parameters of the embedded
functions; everything else is translated from the Python source.
-/

/-! ## Association lists: Python `dict` with insertion order -/

/-- Lookup in an insertion-ordered association list (Python `dict.get`). -/
def alookup {α : Type} : List (String × α) → String → Option α
  | [], _ => none
  | p :: l, k => if p.1 = k then some p.2 else alookup l k

/-- Assignment `d[k] = v`: overwrite in place, else append at the end
(Python dicts preserve insertion order). -/
def aset {α : Type} : List (String × α) → String → α → List (String × α)
  | [], k, v => [(k, v)]
  | p :: l, k, v => if p.1 = k then (k, v) :: l else p :: aset l k v

/-- `defaultdict(int)` read: missing keys read as `0`. -/
def alistGet (l : List (String × Int)) (k : String) : Int :=
  (alookup l k).getD 0

/-! ## Dependency resolver: `topological_sort`

`DependencyResolver.topological_sort(agents, edges)` from
`domain/services/dependency_resolver.py`.  Agents are represented by
their ids, edges by `(from_agent, to_agent)` pairs. -/

/-- `for agent in agents: in_degree[agent["id"]] = 0`. -/
def initDeg (agents : List String) : List (String × Int) :=
  agents.foldl (fun l a => aset l a 0) []

/-- `for edge in edges: in_degree[to_agent] += 1` (defaultdict). -/
def addEdges (deg : List (String × Int)) (edges : List (String × String)) :
    List (String × Int) :=
  edges.foldl (fun l e => aset l e.2 (alistGet l e.2 + 1)) deg

/-- The in-degree table built by `topological_sort` before the loop. -/
def degInit (agents : List String) (edges : List (String × String)) :
    List (String × Int) :=
  addEdges (initDeg agents) edges

/-- The insertion-ordered key set of the in-degree table. -/
def keys0 (agents : List String) (edges : List (String × String)) : List String :=
  (degInit agents edges).map Prod.fst

/-- `graph[u]`: successors of `u`, in edge order (`defaultdict(list)` built
by appending `to_agent` for each edge). -/
def adjOf (edges : List (String × String)) (u : String) : List String :=
  (edges.filter (fun e => e.1 = u)).map (fun e => e.2)

/-- The initial queue: `[id for id, d in in_degree.items() if d == 0]`. -/
def zeroKeys (deg : List (String × Int)) : List String :=
  (deg.filter (fun p => p.2 = 0)).map (fun p => p.1)

/-- One decrement `in_degree[neighbor] -= 1` followed by
`if in_degree[neighbor] == 0: next_queue.append(neighbor)`. -/
def decrStep (acc : List (String × Int) × List String) (v : String) :
    List (String × Int) × List String :=
  let deg := aset acc.1 v (alistGet acc.1 v - 1)
  if alistGet deg v = 0 then (deg, acc.2 ++ [v]) else (deg, acc.2)

/-- Processing one level: decrement the in-degree of every successor of
every member, collecting the nodes whose in-degree reaches zero. -/
def processLevel (edges : List (String × String)) (deg : List (String × Int))
    (level : List String) : List (String × Int) × List String :=
  level.foldl (fun acc u => (adjOf edges u).foldl decrStep acc) (deg, [])

/-- The `while queue:` loop.  `fuel` bounds the number of iterations;
`kahnLoop` returns `none` only on fuel exhaustion, which
`kahnLoop_not_none` below shows never happens for the fuel used by
`topological_sort`. -/
def kahnLoop (edges : List (String × String)) :
    Nat → List (String × Int) → List String → Option (List (List String))
  | 0, _, queue => if queue.isEmpty then some [] else none
  | fuel + 1, deg, queue =>
    if queue.isEmpty then some []
    else
      let p := processLevel edges deg queue
      match kahnLoop edges fuel p.1 p.2 with
      | none => none
      | some rest => some (queue :: rest)

/-- `DependencyResolver.topological_sort`.  `none` models the
`ValueError("Circular dependency detected in workflow")` raised when the
nodes placed in levels do not count up to `len(agents)`. -/
def topological_sort (agents : List String) (edges : List (String × String)) :
    Option (List (List String)) :=
  let deg := degInit agents edges
  match kahnLoop edges (deg.length + 1) deg (zeroKeys deg) with
  | none => none
  | some levels =>
    if (levels.map List.length).sum = agents.length then some levels else none

/-! ## Dependency resolver: `validate_workflow` -/

/-- The edge-reference errors, in edge order (`from` checked before `to`),
as accumulated by the first loop of `validate_workflow`. -/
def unknownRefErrors (agents : List String) : List (String × String) → List String
  | [] => []
  | e :: rest =>
    (if e.1 ∈ agents then [] else ["Edge references unknown agent: " ++ e.1]) ++
      (if e.2 ∈ agents then [] else ["Edge references unknown agent: " ++ e.2]) ++
      unknownRefErrors agents rest

/-- Result of `validate_workflow` (the isolated-agents warning text, which
interpolates a Python set, is modelled by a fixed message). -/
structure ValidationResult where
  valid : Bool
  errors : List String
  warnings : List String
  deriving Repr, DecidableEq

/-- `DependencyResolver.validate_workflow`. -/
def validate_workflow (agents : List String) (edges : List (String × String)) :
    ValidationResult :=
  let refErrs := unknownRefErrors agents edges
  let isolated := agents.filter (fun a => !(edges.any (fun e => e.1 = a || e.2 = a)))
  let warnings :=
    if !isolated.isEmpty && agents.length > 1 then
      ["Isolated agents (no connections)"] else []
  let errs :=
    match topological_sort agents edges with
    | some _ => refErrs
    | none => refErrs ++ ["Circular dependency detected in workflow"]
  { valid := errs.isEmpty, errors := errs, warnings := warnings }

/-! ## Graph-theoretic vocabulary for the specification -/

/-- Nonempty directed paths along the edge list. -/
inductive EPath (edges : List (String × String)) : String → String → Prop
  | single {u v : String} (h : (u, v) ∈ edges) : EPath edges u v
  | cons {u v w : String} (h : (u, v) ∈ edges) (p : EPath edges v w) : EPath edges u w

/-- Acyclicity as the existence of a topological linear order of the
vertex set: an enumeration of exactly the declared ids along which every
edge goes strictly forward. -/
def Acyclic (agents : List String) (edges : List (String × String)) : Prop :=
  ∃ ord : List String, ord.Nodup ∧ (∀ a, a ∈ ord ↔ a ∈ agents) ∧
    ∀ e ∈ edges, ord.indexOf e.1 < ord.indexOf e.2

/-! ## String utilities

Python string primitives used by the executor: `str.lower` (modelled on
the ASCII range, the only one the vocabulary lists use), substring
containment (`in`), and slicing. -/

/-- ASCII case folding of one character (`str.lower`). -/
def lowerChar (c : Char) : Char :=
  if 'A' ≤ c && c ≤ 'Z' then Char.ofNat (c.toNat + 32) else c

/-- ASCII case folding of a string. -/
def lowerStr (s : String) : String :=
  String.mk (s.data.map lowerChar)

/-- Character-list version of `str.startswith`. -/
def charsStartWith : List Char → List Char → Bool
  | [], _ => true
  | _ :: _, [] => false
  | a :: s, b :: l => a = b && charsStartWith s l

/-- Character-list version of Python `needle in hay`. -/
def charsContain (needle : List Char) : List Char → Bool
  | [] => needle.isEmpty
  | b :: l => charsStartWith needle (b :: l) || charsContain needle l

/-- Python `sub in hay` on strings. -/
def strContains (hay sub : String) : Bool :=
  charsContain sub.data hay.data

/-! ## Resilient unit invoker: `_is_execution_successful`

From `DynamicAgentExecutor._is_execution_successful`
(`infrastructure/agents/agent_executor.py`). -/

/-- `description_phrases`: signs the agent merely described a plan. -/
def description_phrases : List String :=
  ["here's what you should do", "you should", "steps to follow", "you need to",
   "first you would", "the process involves", "here's how to"]

/-- `execution_signs`: signs of actual execution. -/
def execution_signs : List String :=
  ["indexed", "created", "deployed", "processed", "generated", "saved",
   "completed", "✅", "success", ".png", ".pdf", ".docx", "/app/data/uploads"]

/-- `_is_execution_successful`: the output is a success exactly when it
shows an execution sign and no description phrase. -/
def is_execution_successful (output : String) : Bool :=
  let lower := lowerStr output
  (execution_signs.any (fun s => strContains lower s)) &&
    !(description_phrases.any (fun p => strContains lower p))

/-! ## Resilient unit invoker: `execute_agent_with_retry`

The outcome of one `execute_agent` call on a given attempt is external
(LLM, tools); it is a parameter `a : Nat → AttemptOut` of the model.
A `ret` output is the string produced after `_parse_output`
(non-JSON outputs pass through `_parse_output` unchanged; the
`json.loads` path is not exercised by the claims). -/

/-- Outcome of a single `execute_agent` call: it raised, or returned the
`output` field of its result dict. -/
inductive AttemptOut : Type
  | raised (msg : String)
  | ret (output : String)
  deriving Repr, DecidableEq

/-- One entry of the `error_history` local (the wall-clock `timestamp`
field is not modelled). -/
structure HistEntry where
  attempt : Nat
  strategy : String
  error : String
  deriving Repr, DecidableEq

/-- The dict returned by `execute_agent_with_retry` (minus the `agent_id`
echo): a success with `output` and `attempts`, or a failure with the
failure message and the `error_history`. -/
inductive RetryResult : Type
  | success (output : String) (attempts : Nat)
  | failure (output : String) (history : List HistEntry)
  deriving Repr, DecidableEq

/-- The `output` field of the returned dict. -/
def RetryResult.output : RetryResult → String
  | RetryResult.success o _ => o
  | RetryResult.failure o _ => o

/-- The `status` field of the returned dict. -/
def RetryResult.statusOf : RetryResult → String
  | RetryResult.success _ _ => "completed"
  | RetryResult.failure _ _ => "failed"

/-- Strategy chosen from the attempt index (`attempt == 1` → normal, … ,
everything past 4 → alternative). -/
def strategyFor (attempt : Nat) : String :=
  if attempt = 1 then "normal"
  else if attempt = 2 then "fix_obvious"
  else if attempt = 3 then "web_search"
  else if attempt = 4 then "rewrite"
  else "alternative"

/-- Error message raised when the result fails `_is_execution_successful`. -/
def descMsg : String := "Agent returned description instead of execution"

/-- The failure dict built after the loop:
`f"Failed after {max_retries} attempts. Last error: {last_error}"`. -/
def mkFailure (maxRetries : Nat) (lastError : String) (hist : List HistEntry) :
    RetryResult :=
  RetryResult.failure
    ("Failed after " ++ Nat.repr maxRetries ++ " attempts. Last error: " ++ lastError)
    hist

/-- The `for attempt in range(1, max_retries + 1)` loop, by the number of
remaining iterations.  Returns the result dict together with the final
value of the `error_history` local (exposed for specification; the Python
success dict omits it). -/
def retryGo (a : Nat → AttemptOut) (maxRetries : Nat) :
    Nat → Nat → String → List HistEntry → RetryResult × List HistEntry
  | 0, _, lastError, hist => (mkFailure maxRetries lastError hist, hist)
  | remaining + 1, attempt, _, hist =>
    let strat := strategyFor attempt
    match a attempt with
    | AttemptOut.raised msg =>
      retryGo a maxRetries remaining (attempt + 1) msg
        (hist ++ [⟨attempt, strat, msg⟩])
    | AttemptOut.ret output =>
      if is_execution_successful output then
        (RetryResult.success output attempt, hist)
      else
        retryGo a maxRetries remaining (attempt + 1) descMsg
          (hist ++ [⟨attempt, strat, descMsg⟩])

/-- `Settings.MAX_RETRY_ATTEMPTS` (`config.py`). -/
def MAX_RETRY_ATTEMPTS : Nat := 5

/-- `max_retries = max_retries or self.max_retries`: `None` and `0` are
falsy in Python, so both fall back to the executor default `5`. -/
def effectiveRetries : Option Nat → Nat
  | none => 5
  | some 0 => 5
  | some (k + 1) => k + 1

/-- `DynamicAgentExecutor.execute_agent_with_retry` (attempt outcomes
abstracted; `error_memory.store_solution` is external persistence). -/
def execute_agent_with_retry (a : Nat → AttemptOut) (maxRetriesArg : Option Nat) :
    RetryResult × List HistEntry :=
  let m := effectiveRetries maxRetriesArg
  retryGo a m m 1 "None" []

/-! ## Capability cleanup: `execute_agent` and `cleanup_tools`

From `DynamicAgentExecutor.execute_agent` and
`ToolRegistry.cleanup_tools`.  A provisioned tool is reduced to the three
fields `cleanup_tools` inspects; the execution steps between provisioning
and cleanup are abstracted into one `Except` outcome (an exception in any
of them propagates through the bare `raise` of the `except` block). -/

/-- The fields of a provisioned-tool dict relevant to cleanup. -/
structure PTool where
  ptype : String
  collection_name : String
  cleanup_required : Bool
  deriving Repr, DecidableEq

/-- `ToolRegistry.cleanup_tools`: the collections actually deleted —
those of tools flagged `cleanup_required` of type `vector_db`. -/
def cleanup_tools (tools : List PTool) : List String :=
  (tools.filter (fun t => t.cleanup_required && t.ptype = "vector_db")).map
    (fun t => t.collection_name)

/-- `DynamicAgentExecutor.execute_agent`, observed as (result, collections
deleted during the attempt).  `cleanup_tools` runs as step 8 of the happy
path only; the `except` branch re-raises without any cleanup. -/
def execute_agent (provisioned : List PTool) (execOutcome : Except String String) :
    Except String String × List String :=
  match execOutcome with
  | Except.ok out => (Except.ok out, cleanup_tools provisioned)
  | Except.error e => (Except.error e, [])

/-! ## Execution orchestrator: `execute_workflow`

From `ExecutionService.execute_workflow`
(`application/services/execution_service.py`).  MongoDB persistence of
the execution record, `uuid` generation and timestamps are external side
effects and are not modelled; the `agent_outputs` context and the status
are.  The per-agent attempt outcomes are a parameter
`att : String → AgentInput → Nat → AttemptOut` (agent id, the input built
for it, attempt index). -/

/-- The fields of an `AgentNode` the execution service reads. -/
structure AgentCfg where
  id : String
  name : String
  task : String
  inputs : List String
  deriving Repr, DecidableEq

/-- The fields of a `WorkflowGraph` the execution service reads. -/
structure Workflow where
  name : String
  agents : List AgentCfg
  edges : List (String × String)
  deriving Repr, DecidableEq

/-- A value stored under an agent id in `agent_outputs`: the raw output
string, the (opaque) result of `json.loads` on a string starting with
`{`, or the error dict written by the `isinstance(result, Exception)`
branch. -/
inductive JVal : Type
  | s (v : String)
  | parsed (src : String)
  | errObj (error : String)
  deriving Repr, DecidableEq

/-- A value stored in the `agent_outputs` dict: an agent output or one of
the four reserved entries created at execution start.  `errorMemory`
entries keep (signature, error message); the `agent`/`timestamp` fields
are not modelled.  `deployedServices` entries are (agent name, url,
type). -/
inductive CtxVal : Type
  | out (v : JVal)
  | filesContext (files : List String) (total : Nat)
  | userFiles (files : List String)
  | errorMemory (m : List (String × String))
  | deployedServices (l : List (String × String × String))
  deriving Repr, DecidableEq

/-- The `agent_outputs` dict. -/
def Ctx : Type := List (String × CtxVal)

/-- The context created before level 1, in insertion order. -/
def initial_ctx (files : List String) : Ctx :=
  [("files_context", CtxVal.filesContext files files.length),
   ("user_files", CtxVal.userFiles files),
   ("error_memory", CtxVal.errorMemory []),
   ("deployed_services", CtxVal.deployedServices [])]

/-- The input dict built by `_build_agent_input`. -/
structure AgentInput where
  files : List String
  task : String
  error_guidance : Option String
  deps : List (String × CtxVal)
  deriving Repr, DecidableEq

/-- The `error_guidance` string built from a non-empty error memory. -/
def errorGuidance (m : List (String × String)) : String :=
  m.foldl
    (fun acc p => acc ++ "- " ++ p.1 ++ ": " ++ (p.2.take 100) ++ "\n")
    "\n\nKNOWN ERROR PATTERNS (avoid these):\n"

/-- `ExecutionService._build_agent_input`: files, the task, error-memory
guidance if any, and an `input_from_<id>` entry for every declared input
present in the context and not in the reserved exclusion list. -/
def build_agent_input (a : AgentCfg) (ctx : Ctx) (files : List String) :
    AgentInput :=
  let em := match alookup ctx "error_memory" with
    | some (CtxVal.errorMemory m) => m
    | _ => []
  { files := files
    task := a.task
    error_guidance := if em.isEmpty then none else some (errorGuidance em)
    deps := a.inputs.filterMap (fun ref =>
      match alookup ctx ref with
      | some v =>
        if ref = "user_data" || ref = "files_context" || ref = "error_memory" then
          none
        else some ("input_from_" ++ ref, v)
      | none => none) }

/-- `ExecutionService._get_error_signature`. -/
def get_error_signature (msg : String) : String :=
  if strContains msg "KeyError" then "KeyError_missing_columns"
  else if strContains msg "AttributeError" && strContains msg "applymap" then
    "AttributeError_applymap_deprecated"
  else if strContains msg "not in index" then "KeyError_column_not_found"
  else if strContains (lowerStr msg) "trailing space" then
    "ValueError_trailing_spaces"
  else ((msg.splitOn "\n").headD "").take 50

/-- `re.search(r'URL: (http://[^\s]+)', output)`, first match (the
deployed-services branch; not exercised by the claims). -/
def extractUrl (s : String) : Option String :=
  match s.splitOn "URL: http://" with
  | _ :: rest :: _ =>
    let t := rest.data.takeWhile
      (fun c => !(c = ' ' || c = '\n' || c = '\t' || c = '\r'))
    if t.isEmpty then none else some ("http://" ++ String.mk t)
  | _ => none

/-- Storing one agent's gathered result into the context
(`for agent, result in zip(agents_in_level, results)`).
`asyncio.gather(..., return_exceptions=True)` hands back an exception
object or the dict `execute_agent_with_retry` returned; the latter never
raises (every attempt exception is caught inside its loop), so the value
fed in by `run_level` below is always `Except.ok`. -/
def store_result (cs : Ctx × String) (a : AgentCfg)
    (gres : Except String RetryResult) : Ctx × String :=
  match gres with
  | Except.error emsg =>
    let ctx1 := aset cs.1 a.id (CtxVal.out (JVal.errObj emsg))
    let em := match alookup ctx1 "error_memory" with
      | some (CtxVal.errorMemory m) => m
      | _ => []
    let ctx2 := aset ctx1 "error_memory"
      (CtxVal.errorMemory (aset em (get_error_signature emsg) emsg))
    (ctx2, "failed")
  | Except.ok r =>
    let output := r.output
    let storedVal := if charsStartWith "\x7b".data output.data then JVal.parsed output
      else JVal.s output
    let ctx1 := aset cs.1 a.id (CtxVal.out storedVal)
    let ctx2 :=
      if strContains (lowerStr output) "deployed successfully" then
        match extractUrl output with
        | some url =>
          let old := match alookup ctx1 "deployed_services" with
            | some (CtxVal.deployedServices l) => l
            | _ => []
          let kind := if strContains (lowerStr output) "streamlit" then "streamlit"
            else "gradio"
          aset ctx1 "deployed_services"
            (CtxVal.deployedServices (old ++ [(a.name, url, kind)]))
        | none => ctx1
      else ctx1
    (ctx2, cs.2)

/-- One level of the orchestrator loop: inputs for every agent of the
level are built from the level-start context, all retries are dispatched
(concurrently in Python, zipped back in list order), then the results are
stored in order. -/
def run_level (att : String → AgentInput → Nat → AttemptOut) (files : List String)
    (cs : Ctx × String) (agentsInLevel : List AgentCfg) : Ctx × String :=
  let results := agentsInLevel.map (fun a =>
    (a, (Except.ok (execute_agent_with_retry
        (att a.id (build_agent_input a cs.1 files))
        (some MAX_RETRY_ATTEMPTS)).1 : Except String RetryResult)))
  results.foldl (fun acc p => store_result acc p.1 p.2) cs

/-- The final output of the run. -/
inductive FinalOutput : Type
  | plain (v : CtxVal)
  | withServices (result : CtxVal) (services : List (String × String × String))
  deriving Repr, DecidableEq

/-- The dict returned by `execute_workflow`. -/
structure ExecOutcome where
  status : String
  final_output : FinalOutput
  outputs : List (String × CtxVal)
  deriving Repr, DecidableEq

/-- `ExecutionService.execute_workflow`.  `Except.error` models an
uncaught exception: the `ValueError` raised on failed validation, the
`ValueError` from `topological_sort`, or the `IndexError` of
`workflow.agents[-1]` on an empty agent list. -/
def execute_workflow (att : String → AgentInput → Nat → AttemptOut)
    (w : Workflow) (files : List String) : Except String ExecOutcome :=
  let ids := w.agents.map (fun a => a.id)
  let validation := validate_workflow ids w.edges
  if validation.valid = false then
    Except.error ("Invalid workflow: " ++ String.intercalate "; " validation.errors)
  else
    match topological_sort ids w.edges with
    | none => Except.error "Circular dependency detected in workflow"
    | some levels =>
      let start := (initial_ctx files, "running")
      let res := levels.foldl
        (fun cs level => run_level att files cs
          (w.agents.filter (fun a => level.contains a.id))) start
      let finalStatus := if res.2 ≠ "failed" then "completed" else res.2
      match w.agents.getLast? with
      | none => Except.error "IndexError: list index out of range"
      | some lastA =>
        let fo := (alookup res.1 lastA.id).getD (CtxVal.out (JVal.s "No output"))
        let deployed := match alookup res.1 "deployed_services" with
          | some (CtxVal.deployedServices l) => l
          | _ => []
        let final_output := if deployed.isEmpty then FinalOutput.plain fo
          else FinalOutput.withServices fo deployed
        Except.ok { status := finalStatus, final_output := final_output,
                    outputs := res.1 }

/-! ## Tool registry: `_sanitize_collection_name`

From `ToolRegistry._sanitize_collection_name`
(`infrastructure/tools/tool_registry.py`), over character lists. -/

/-- ASCII alphanumeric (`[a-zA-Z0-9]`; the characters this is applied to
are always ASCII, where Python `isalnum` agrees). -/
def isAsciiAlnum (c : Char) : Bool :=
  ('a' ≤ c && c ≤ 'z') || ('A' ≤ c && c ≤ 'Z') || ('0' ≤ c && c ≤ '9')

/-- The charset `[a-zA-Z0-9._-]` kept by the first substitution. -/
def isAllowedChar (c : Char) : Bool :=
  isAsciiAlnum c || c = '.' || c = '_' || c = '-'

/-- `re.sub(r'[^a-zA-Z0-9._-]', '_', name)`. -/
def subDisallowed (l : List Char) : List Char :=
  l.map (fun c => if isAllowedChar c then c else '_')

/-- `re.sub(r'^[^a-zA-Z0-9]+|[^a-zA-Z0-9]+$', '', s)`: strip the leading
and trailing runs of non-alphanumerics. -/
def stripEnds (l : List Char) : List Char :=
  ((l.dropWhile (fun c => !isAsciiAlnum c)).reverse.dropWhile
    (fun c => !isAsciiAlnum c)).reverse

/-- `re.sub(r'_+', '_', s)`: collapse runs of underscores (the flag
records whether the previous kept character was an underscore). -/
def collapseUndAux : Bool → List Char → List Char
  | _, [] => []
  | prevU, c :: rest =>
    if c = '_' then
      if prevU then collapseUndAux true rest else '_' :: collapseUndAux true rest
    else c :: collapseUndAux false rest

/-- `re.sub(r'_+', '_', s)`. -/
def collapseUnd (l : List Char) : List Char :=
  collapseUndAux false l

/-- `ToolRegistry._sanitize_collection_name`. -/
def sanitize_collection_name (name : String) : String :=
  let s1 := subDisallowed name.data
  let s2 := stripEnds s1
  let s3 := collapseUnd s2
  let s4 := if s3.isEmpty || !isAsciiAlnum (s3.headD ' ') then
      ("col_".data ++ s3) else s3
  let s5 := s4.take 63
  let s6 := if s5.length < 3 then s5 ++ "_db".data else s5
  String.mk s6

/-! ## Service manager: port allocation and `stop_service`

From `ServiceManager` (`infrastructure/services/service_manager.py`).
Whether the OS accepts a bind on a port is external: parameter
`free : Nat → Bool` (the probe-and-commit is a single step, as in the
source). -/

/-- `range(8501, 8600)`: the 99 candidate ports 8501..8599. -/
def portRange : List Nat := List.range' 8501 99

/-- The scan of `_find_available_port`: skip ports in
`allocated_ports`, bind-probe the rest, return the first success. -/
def findPort (free : Nat → Bool) (allocated : List Nat) : List Nat → Option Nat
  | [] => none
  | p :: rest =>
    if p ∈ allocated then findPort free allocated rest
    else if free p then some p
    else findPort free allocated rest

/-- `ServiceManager._find_available_port`: on success the port is added
to `allocated_ports`; `none` models the
`RuntimeError("No available ports in range 8501-8600")`. -/
def find_available_port (free : Nat → Bool) (allocated : List Nat) :
    Option (Nat × List Nat) :=
  match findPort free allocated portRange with
  | some p => some (p, allocated ++ [p])
  | none => none

/-- `n` successive allocations, returning the ports in order and the
final `allocated_ports` set. -/
def allocPorts (free : Nat → Bool) : Nat → List Nat → Option (List Nat × List Nat)
  | 0, allocated => some ([], allocated)
  | n + 1, allocated =>
    match find_available_port free allocated with
    | none => none
    | some (p, allocated2) =>
      match allocPorts free n allocated2 with
      | none => none
      | some (ps, allocatedF) => some (p :: ps, allocatedF)

/-- The fields of an `active_services` record `stop_service` touches. -/
structure SvcRecord where
  port : Nat
  pid : Nat
  deriving Repr, DecidableEq

/-- The mutable state of the `ServiceManager`. -/
structure MgrState where
  active : List (String × SvcRecord)
  allocated : List Nat
  deriving Repr, DecidableEq

/-- `ServiceManager.stop_service`.  `termRaises` abstracts whether
`psutil.Process(pid)` / `terminate()` / `wait(timeout=5)` raises; the
port discard and the `del` happen after those calls and cannot raise, so
an exception leaves the state untouched and is answered with `False`. -/
def stop_service (termRaises : Bool) (st : MgrState) (service_id : String) :
    Bool × MgrState :=
  match alookup st.active service_id with
  | none => (false, st)
  | some svc =>
    if termRaises then (false, st)
    else
      (true,
       { active := st.active.filter (fun p => !(p.1 = service_id)),
         allocated := st.allocated.erase svc.port })

/-! ## The C2 end-to-end scenario

Diamond graph A → {B, C} → D; every attempt of B raises, A, C, D succeed
on their first attempt with outputs carrying an execution sign. -/

/-- Unit A of the scenario. -/
def agentA : AgentCfg := { id := "A", name := "Agent A", task := "collect", inputs := [] }

/-- Unit B of the scenario. -/
def agentB : AgentCfg := { id := "B", name := "Agent B", task := "left", inputs := ["A"] }

/-- Unit C of the scenario. -/
def agentC : AgentCfg := { id := "C", name := "Agent C", task := "right", inputs := ["A"] }

/-- Unit D of the scenario. -/
def agentD : AgentCfg := { id := "D", name := "Agent D", task := "merge", inputs := ["B", "C"] }

/-- The diamond workflow. -/
def diamondWorkflow : Workflow :=
  { name := "diamond",
    agents := [agentA, agentB, agentC, agentD],
    edges := [("A", "B"), ("A", "C"), ("B", "D"), ("C", "D")] }

/-- Attempt outcomes of the scenario: B always raises `boom`, everyone
else returns `agent <id> output: created` (classified successful). -/
def diamondAtt : String → AgentInput → Nat → AttemptOut :=
  fun aid _ _ =>
    if aid = "B" then AttemptOut.raised "boom"
    else AttemptOut.ret ("agent " ++ aid ++ " output: created")

/-- The context and status after the first two levels `[A]`, `[B, C]`. -/
def diamondCtx2 : Ctx × String :=
  run_level diamondAtt []
    (run_level diamondAtt [] (initial_ctx [], "running") [agentA]) [agentB, agentC]

/-- The output string B's exhausted retries store under `"B"`. -/
def bFailMsg : String := "Failed after 5 attempts. Last error: boom"

/-- The output string of a succeeding agent of the scenario. -/
def okOut (aid : String) : String := "agent " ++ aid ++ " output: created"

/-! ## Specification vocabulary used by the theorems -/

/-- Number of edges into `v`. -/
def inCnt (edges : List (String × String)) (v : String) : Nat :=
  edges.countP (fun e => e.2 = v)

/-- Number of edges into `v` whose source lies in `S`. -/
def placedIn (edges : List (String × String)) (S : List String) (v : String) : Nat :=
  edges.countP (fun e => e.2 = v && e.1 ∈ S)

/-- Occurrences of `v` in a list. -/
def occ (ds : List String) (v : String) : Nat :=
  ds.countP (fun w => w = v)

/-- Loop invariant of the level loop, at the head of each iteration:
`processed` is the concatenation of the levels already processed and
`queue` the level about to run.  The in-degree table keeps its key set,
holds `#incoming − #incoming-from-processed`, processed and queued nodes
are distinct keys, and a key has in-degree zero exactly when it has been
queued or processed. -/
structure KahnInv (agents : List String) (edges : List (String × String))
    (deg : List (String × Int)) (queue processed : List String) : Prop where
  keys_eq : deg.map Prod.fst = keys0 agents edges
  deg_eq : ∀ v, alistGet deg v =
    (inCnt edges v : Int) - (placedIn edges processed v : Int)
  nodup : (processed ++ queue).Nodup
  mem_keys : ∀ v ∈ processed ++ queue, v ∈ keys0 agents edges
  zero_iff : ∀ v ∈ keys0 agents edges,
    (alistGet deg v = 0 ↔ v ∈ processed ++ queue)

/-- A failing attempt: the call raised, or its output fails the success
classifier. -/
def attemptFails (o : AttemptOut) : Prop :=
  match o with
  | AttemptOut.raised _ => True
  | AttemptOut.ret out => is_execution_successful out = false

/-- The error recorded in the history for a failing attempt. -/
def errOf (o : AttemptOut) : String :=
  match o with
  | AttemptOut.raised m => m
  | AttemptOut.ret _ => descMsg

/-- Ports of the pool that are free and not yet allocated. -/
def availCount (free : Nat → Bool) (allocated : List Nat) : Nat :=
  portRange.countP (fun p => free p && decide (p ∉ allocated))

/-! ## Association-list lemmas -/

theorem alookup_aset_self {α : Type} (l : List (String × α)) (k : String) (v : α) :
    alookup (aset l k v) k = some v := by
  induction l with
  | nil => simp [aset, alookup]
  | cons p l ih =>
    by_cases h : p.1 = k
    · simp [aset, h, alookup]
    · simp [aset, h, alookup, ih]

theorem alookup_aset_ne {α : Type} (l : List (String × α)) {k k' : String} (v : α)
    (h : k' ≠ k) : alookup (aset l k v) k' = alookup l k' := by
  have hkk : ¬(k = k') := fun he => h he.symm
  induction l with
  | nil => simp [aset, alookup, hkk]
  | cons p l ih =>
    by_cases hp : p.1 = k
    · subst hp
      simp [aset, alookup, hkk]
    · simp only [aset, if_neg hp, alookup, ih]

theorem alistGet_aset_self (l : List (String × Int)) (k : String) (v : Int) :
    alistGet (aset l k v) k = v := by
  simp [alistGet, alookup_aset_self]

theorem alistGet_aset_ne (l : List (String × Int)) {k k' : String} (v : Int)
    (h : k' ≠ k) : alistGet (aset l k v) k' = alistGet l k' := by
  simp [alistGet, alookup_aset_ne l v h]

theorem aset_keys {α : Type} (l : List (String × α)) (k : String) (v : α) :
    (aset l k v).map Prod.fst =
      if k ∈ l.map Prod.fst then l.map Prod.fst else l.map Prod.fst ++ [k] := by
  induction l with
  | nil => simp [aset]
  | cons p l ih =>
    by_cases h : p.1 = k
    · simp [aset, h]
    · simp only [aset, if_neg h, List.map_cons, ih]
      by_cases hm : k ∈ l.map Prod.fst
      · simp [hm, Ne.symm h]
      · simp [hm, Ne.symm h]

theorem aset_keys_nodup {α : Type} (l : List (String × α)) (k : String) (v : α)
    (h : (l.map Prod.fst).Nodup) : ((aset l k v).map Prod.fst).Nodup := by
  rw [aset_keys]
  by_cases hm : k ∈ l.map Prod.fst
  · simpa [hm]
  · simp only [hm, if_false]
    exact List.Nodup.append h (List.nodup_singleton k) (by simpa using hm)

theorem alookup_eq_none_iff {α : Type} (l : List (String × α)) (k : String) :
    alookup l k = none ↔ k ∉ l.map Prod.fst := by
  induction l with
  | nil => simp [alookup]
  | cons p l ih =>
    by_cases h : p.1 = k
    · simp [alookup, h]
    · simp [alookup, h, ih, Ne.symm h]

theorem alookup_mem {α : Type} {l : List (String × α)} {k : String} {v : α}
    (h : alookup l k = some v) : (k, v) ∈ l := by
  induction l with
  | nil => simp [alookup] at h
  | cons p l ih =>
    by_cases hp : p.1 = k
    · simp only [alookup, if_pos hp] at h
      have hpv : p = (k, v) := by
        cases p
        simp_all
      rw [← hpv]
      exact List.mem_cons_self _ _
    · simp only [alookup, if_neg hp] at h
      exact List.mem_cons_of_mem _ (ih h)

theorem mem_alookup {α : Type} {l : List (String × α)} {k : String} {v : α}
    (hnd : (l.map Prod.fst).Nodup) (h : (k, v) ∈ l) : alookup l k = some v := by
  induction l with
  | nil => simp at h
  | cons p l ih =>
    rcases List.mem_cons.1 h with h1 | h1
    · subst h1
      simp [alookup]
    · have hk : k ∈ l.map Prod.fst := List.mem_map.2 ⟨(k, v), h1, rfl⟩
      have hp : p.1 ≠ k := by
        intro he
        rw [List.map_cons, List.nodup_cons] at hnd
        exact hnd.1 (he ▸ hk)
      simp only [alookup, if_neg hp]
      exact ih (List.nodup_cons.1 (by simpa using hnd)).2 h1

theorem alistGet_ne_zero_mem {l : List (String × Int)} {k : String}
    (h : alistGet l k ≠ 0) : k ∈ l.map Prod.fst := by
  by_contra hm
  rw [← alookup_eq_none_iff] at hm
  simp [alistGet, hm] at h

/-! ## The in-degree table built before the loop -/

theorem alistGet_foldl_zero :
    ∀ (agents : List String) (l : List (String × Int)),
      (∀ v, alistGet l v = 0) →
        ∀ v, alistGet (agents.foldl (fun d a => aset d a 0) l) v = 0 := by
  intro agents
  induction agents with
  | nil => intro l h v; exact h v
  | cons a ag ih =>
    intro l h v
    refine ih (aset l a 0) (fun w => ?_) v
    by_cases hw : w = a
    · subst hw; exact alistGet_aset_self _ _ _
    · rw [alistGet_aset_ne _ _ hw]; exact h w

theorem alistGet_initDeg (agents : List String) (v : String) :
    alistGet (initDeg agents) v = 0 :=
  alistGet_foldl_zero agents [] (fun _ => rfl) v

theorem alistGet_addEdges :
    ∀ (edges : List (String × String)) (deg : List (String × Int)) (v : String),
      alistGet (addEdges deg edges) v = alistGet deg v + (inCnt edges v : Int) := by
  intro edges
  induction edges with
  | nil => intro deg v; simp [addEdges, inCnt]
  | cons e es ih =>
    intro deg v
    have hstep : addEdges deg (e :: es) =
        addEdges (aset deg e.2 (alistGet deg e.2 + 1)) es := rfl
    rw [hstep, ih]
    by_cases hv : v = e.2
    · subst hv
      rw [alistGet_aset_self]
      simp only [inCnt, List.countP_cons, decide_True]
      push_cast
      ring
    · rw [alistGet_aset_ne _ _ hv]
      have : (decide (e.2 = v)) = false := by
        simp [Ne.symm hv]
      simp only [inCnt, List.countP_cons, this]
      push_cast
      ring

theorem alistGet_degInit (agents : List String) (edges : List (String × String))
    (v : String) : alistGet (degInit agents edges) v = (inCnt edges v : Int) := by
  rw [degInit, alistGet_addEdges, alistGet_initDeg]
  ring

theorem mem_keys_aset {α : Type} (l : List (String × α)) (k : String) (v : α)
    (w : String) :
    w ∈ (aset l k v).map Prod.fst ↔ w ∈ l.map Prod.fst ∨ w = k := by
  rw [aset_keys]
  by_cases hm : k ∈ l.map Prod.fst
  · simp only [hm, if_true]
    constructor
    · exact fun h => Or.inl h
    · rintro (h | h)
      · exact h
      · exact h ▸ hm
  · simp [hm]

theorem keys_foldl_aset0 :
    ∀ (agents : List String) (l : List (String × Int)) (w : String),
      w ∈ (agents.foldl (fun d a => aset d a 0) l).map Prod.fst ↔
        w ∈ l.map Prod.fst ∨ w ∈ agents := by
  intro agents
  induction agents with
  | nil => intro l w; simp
  | cons a ag ih =>
    intro l w
    simp only [List.foldl_cons, ih, mem_keys_aset, List.mem_cons]
    tauto

theorem mem_keys_initDeg (agents : List String) (w : String) :
    w ∈ (initDeg agents).map Prod.fst ↔ w ∈ agents := by
  rw [initDeg, keys_foldl_aset0]
  simp

theorem keys_foldl_aset0_nodup :
    ∀ (agents : List String) (l : List (String × Int)),
      (l.map Prod.fst).Nodup →
        ((agents.foldl (fun d a => aset d a 0) l).map Prod.fst).Nodup := by
  intro agents
  induction agents with
  | nil => intro l h; exact h
  | cons a ag ih => intro l h; exact ih _ (aset_keys_nodup _ _ _ h)

theorem keys_initDeg_nodup (agents : List String) :
    ((initDeg agents).map Prod.fst).Nodup :=
  keys_foldl_aset0_nodup agents [] (by simp)

theorem mem_keys_addEdges :
    ∀ (edges : List (String × String)) (deg : List (String × Int)) (w : String),
      w ∈ (addEdges deg edges).map Prod.fst ↔
        w ∈ deg.map Prod.fst ∨ w ∈ edges.map Prod.snd := by
  intro edges
  induction edges with
  | nil => intro deg w; simp [addEdges]
  | cons e es ih =>
    intro deg w
    have hstep : addEdges deg (e :: es) =
        addEdges (aset deg e.2 (alistGet deg e.2 + 1)) es := rfl
    rw [hstep, ih, mem_keys_aset]
    simp only [List.map_cons, List.mem_cons]
    tauto

theorem keys_addEdges_nodup :
    ∀ (edges : List (String × String)) (deg : List (String × Int)),
      (deg.map Prod.fst).Nodup → ((addEdges deg edges).map Prod.fst).Nodup := by
  intro edges
  induction edges with
  | nil => intro deg h; exact h
  | cons e es ih => intro deg h; exact ih _ (aset_keys_nodup _ _ _ h)

theorem mem_keys0 (agents : List String) (edges : List (String × String))
    (w : String) :
    w ∈ keys0 agents edges ↔ w ∈ agents ∨ w ∈ edges.map Prod.snd := by
  rw [keys0, degInit, mem_keys_addEdges, mem_keys_initDeg]

theorem keys0_nodup (agents : List String) (edges : List (String × String)) :
    (keys0 agents edges).Nodup :=
  keys_addEdges_nodup edges _ (keys_initDeg_nodup agents)

theorem inCnt_pos_mem_keys0 (agents : List String) (edges : List (String × String))
    {v : String} (h : 0 < inCnt edges v) : v ∈ keys0 agents edges := by
  rw [mem_keys0]
  right
  rw [inCnt, List.countP_pos_iff] at h
  rcases h with ⟨e, he, hev⟩
  rw [decide_eq_true_eq] at hev
  exact List.mem_map.2 ⟨e, he, hev⟩

/-! ## The initial queue -/

theorem zeroKeys_subset (deg : List (String × Int)) :
    ∀ v ∈ zeroKeys deg, v ∈ deg.map Prod.fst := by
  intro v hv
  rcases List.mem_map.1 hv with ⟨p, hp, rfl⟩
  exact List.mem_map.2 ⟨p, (List.mem_filter.1 hp).1, rfl⟩

theorem zeroKeys_nodup (deg : List (String × Int))
    (h : (deg.map Prod.fst).Nodup) : (zeroKeys deg).Nodup :=
  List.Nodup.sublist (List.Sublist.map _ (List.filter_sublist deg)) h

theorem mem_zeroKeys {deg : List (String × Int)}
    (hnd : (deg.map Prod.fst).Nodup) (v : String) :
    v ∈ zeroKeys deg ↔ v ∈ deg.map Prod.fst ∧ alistGet deg v = 0 := by
  constructor
  · intro hv
    rcases List.mem_map.1 hv with ⟨p, hp, rfl⟩
    rcases List.mem_filter.1 hp with ⟨hmem, hz⟩
    rw [decide_eq_true_eq] at hz
    refine ⟨List.mem_map.2 ⟨p, hmem, rfl⟩, ?_⟩
    have : alookup deg p.1 = some p.2 := mem_alookup hnd (by
      cases p; exact hmem)
    rw [alistGet, this, hz]
    rfl
  · rintro ⟨hmem, hz⟩
    have hne : alookup deg v ≠ none := by
      intro h
      exact (alookup_eq_none_iff deg v).1 h hmem
    rcases Option.ne_none_iff_exists'.1 hne with ⟨x, hx⟩
    have hx0 : x = 0 := by
      rw [alistGet, hx] at hz
      exact hz
    subst hx0
    have hvdeg : (v, (0 : Int)) ∈ deg := alookup_mem hx
    refine List.mem_map.2 ⟨(v, 0), List.mem_filter.2 ⟨hvdeg, by simp⟩, rfl⟩

/-! ## Counting edges -/

theorem placedIn_nil (edges : List (String × String)) (v : String) :
    placedIn edges [] v = 0 := by
  simp [placedIn]

theorem placedIn_le_inCnt (edges : List (String × String)) (S : List String)
    (v : String) : placedIn edges S v ≤ inCnt edges v := by
  refine List.countP_mono_left (fun e _ h => ?_)
  rw [Bool.and_eq_true, decide_eq_true_eq] at h
  rw [decide_eq_true_eq]
  exact h.1

theorem placedIn_append (edges : List (String × String)) (S T : List String)
    (v : String) (hdisj : ∀ x ∈ S, x ∉ T) :
    placedIn edges (S ++ T) v = placedIn edges S v + placedIn edges T v := by
  induction edges with
  | nil => simp [placedIn]
  | cons e es ih =>
    simp only [placedIn, List.countP_cons] at *
    rw [ih]
    by_cases h2 : e.2 = v
    · by_cases hS : e.1 ∈ S
      · have hT : e.1 ∉ T := hdisj _ hS
        simp [h2, hS, hT]
        omega
      · by_cases hT : e.1 ∈ T
        · simp [h2, hS, hT]
          omega
        · simp [h2, hS, hT]
    · simp [h2]

theorem countP_pointwise {α : Type} {p q : α → Bool} :
    ∀ {l : List α}, (∀ x ∈ l, p x = true → q x = true) →
      List.countP q l ≤ List.countP p l →
        ∀ x ∈ l, q x = true → p x = true := by
  intro l
  induction l with
  | nil => intro _ _ x hx; simp at hx
  | cons a t ih =>
    intro himp hle x hx hq
    have himpt : ∀ y ∈ t, p y = true → q y = true :=
      fun y hy => himp y (List.mem_cons_of_mem _ hy)
    by_cases hpa : p a = true
    · have hqa : q a = true := himp a (List.mem_cons_self _ _) hpa
      rw [List.countP_cons, List.countP_cons, if_pos hqa, if_pos hpa] at hle
      have hle2 : List.countP q t ≤ List.countP p t := by omega
      rcases List.mem_cons.1 hx with rfl | hxt
      · exact hpa
      · exact ih himpt hle2 x hxt hq
    · by_cases hqa : q a = true
      · have hmono : List.countP p t ≤ List.countP q t :=
          List.countP_mono_left himpt
        rw [List.countP_cons, List.countP_cons, if_pos hqa,
          if_neg (by simpa using hpa)] at hle
        omega
      · rw [List.countP_cons, List.countP_cons, if_neg (by simpa using hqa),
          if_neg (by simpa using hpa)] at hle
        rcases List.mem_cons.1 hx with rfl | hxt
        · exact absurd hq hqa
        · exact ih himpt (by omega) x hxt hq

/-- When every incoming edge of `v` is counted by `placedIn S`, each such
edge has its source in `S`. -/
theorem placedIn_full (edges : List (String × String)) (S : List String)
    (v : String) (h : placedIn edges S v = inCnt edges v) :
    ∀ e ∈ edges, e.2 = v → e.1 ∈ S := by
  intro e he hev
  have hpt := countP_pointwise (p := fun e => e.2 = v && e.1 ∈ S)
    (q := fun e => e.2 = v)
    (l := edges)
    (fun x _ hx => by
      rw [Bool.and_eq_true, decide_eq_true_eq] at hx
      rw [decide_eq_true_eq]
      exact hx.1)
    (by rw [← placedIn, ← inCnt, h])
  have := hpt e he (by rw [decide_eq_true_eq]; exact hev)
  rw [Bool.and_eq_true, decide_eq_true_eq, decide_eq_true_eq] at this
  exact this.2

/-- When `placedIn S` falls short of `inCnt`, some incoming edge of `v`
has its source outside `S`. -/
theorem placedIn_short (edges : List (String × String)) (S : List String)
    (v : String) (h : placedIn edges S v < inCnt edges v) :
    ∃ e ∈ edges, e.2 = v ∧ e.1 ∉ S := by
  by_contra hall
  push_neg at hall
  have : inCnt edges v ≤ placedIn edges S v := by
    refine List.countP_mono_left (fun e he hx => ?_)
    rw [decide_eq_true_eq] at hx
    rw [Bool.and_eq_true, decide_eq_true_eq, decide_eq_true_eq]
    exact ⟨hx, hall e he hx⟩
  omega

/-! ## Processing one level -/

theorem occ_cons (d : String) (ds : List String) (v : String) :
    occ (d :: ds) v = occ ds v + (if d = v then 1 else 0) := by
  simp only [occ, List.countP_cons]
  by_cases h : d = v <;> simp [h]

theorem occ_append (l₁ l₂ : List String) (v : String) :
    occ (l₁ ++ l₂) v = occ l₁ v + occ l₂ v :=
  List.countP_append _ _ _

theorem aset_keys_mem {α : Type} (l : List (String × α)) {k : String} (v : α)
    (h : k ∈ l.map Prod.fst) : (aset l k v).map Prod.fst = l.map Prod.fst := by
  rw [aset_keys, if_pos h]

/-- Running the decrement step over a list of successor occurrences `ds`,
starting from table `deg` and queue accumulator `acc`. -/
theorem decr_run :
    ∀ (ds : List String) (deg : List (String × Int)) (acc : List String),
      (∀ v, (occ ds v : Int) ≤ alistGet deg v) →
      (∀ v ∈ acc, alistGet deg v = 0) →
      acc.Nodup →
      (∀ v ∈ ds, v ∈ deg.map Prod.fst) →
      ((ds.foldl decrStep (deg, acc)).1.map Prod.fst = deg.map Prod.fst) ∧
        (∀ v, alistGet (ds.foldl decrStep (deg, acc)).1 v =
          alistGet deg v - occ ds v) ∧
        (ds.foldl decrStep (deg, acc)).2.Nodup ∧
        (∀ v, v ∈ (ds.foldl decrStep (deg, acc)).2 ↔
          (v ∈ acc ∨ (0 < alistGet deg v ∧ alistGet deg v = occ ds v))) := by
  intro ds
  induction ds with
  | nil =>
    intro deg acc _ _ hnd _
    refine ⟨rfl, fun v => by simp [occ], hnd, fun v => ?_⟩
    simp only [List.foldl_nil, occ, List.countP_nil]
    constructor
    · exact fun h => Or.inl h
    · rintro (h | ⟨h1, h2⟩)
      · exact h
      · omega
  | cons d ds ih =>
    intro deg acc hcnt hacc hnd hkeys
    have hdk : d ∈ deg.map Prod.fst := hkeys d (List.mem_cons_self _ _)
    have hd1 : (occ ds d : Int) + 1 ≤ alistGet deg d := by
      have := hcnt d
      rw [occ_cons, if_pos rfl] at this
      push_cast at this
      omega
    set d1 := aset deg d (alistGet deg d - 1) with hd1def
    have hget_d : alistGet d1 d = alistGet deg d - 1 := alistGet_aset_self _ _ _
    have hget_ne : ∀ w, w ≠ d → alistGet d1 w = alistGet deg w :=
      fun w hw => alistGet_aset_ne _ _ hw
    have hkeys1 : d1.map Prod.fst = deg.map Prod.fst := aset_keys_mem _ _ hdk
    have hcnt1 : ∀ v, (occ ds v : Int) ≤ alistGet d1 v := by
      intro v
      by_cases hv : v = d
      · subst hv; omega
      · rw [hget_ne v hv]
        have := hcnt v
        rw [occ_cons] at this
        have hle : occ ds v ≤ occ (d :: ds) v := by
          rw [occ_cons]; omega
        push_cast at this ⊢
        omega
    have hkeys2 : ∀ v ∈ ds, v ∈ d1.map Prod.fst := by
      intro v hv
      rw [hkeys1]
      exact hkeys v (List.mem_cons_of_mem _ hv)
    have hfold : (d :: ds).foldl decrStep (deg, acc) =
        ds.foldl decrStep (decrStep (deg, acc) d) := rfl
    by_cases hz : alistGet deg d = 1
    · -- the decrement reaches zero: d is appended to the queue
      have hstep : decrStep (deg, acc) d = (d1, acc ++ [d]) := by
        simp only [decrStep, ← hd1def]
        rw [if_pos (by omega)]
      have hdnacc : d ∉ acc := by
        intro hmem
        have := hacc d hmem
        omega
      have hacc1 : ∀ v ∈ acc ++ [d], alistGet d1 v = 0 := by
        intro v hv
        rcases List.mem_append.1 hv with hv | hv
        · have h0 := hacc v hv
          have hvd : v ≠ d := by
            intro he
            subst he
            omega
          rw [hget_ne v hvd]; exact h0
        · have hvd : v = d := by simpa using hv
          subst hvd
          omega
      have hnd1 : (acc ++ [d]).Nodup := by
        simp [List.nodup_append, hnd, hdnacc]
      rcases ih d1 (acc ++ [d]) hcnt1 hacc1 hnd1 hkeys2 with ⟨k1, g1, n1, m1⟩
      rw [hfold, hstep]
      refine ⟨by rw [k1, hkeys1], fun v => ?_, n1, fun v => ?_⟩
      · rw [g1 v]
        by_cases hv : v = d
        · subst hv
          rw [hget_d, occ_cons, if_pos rfl]
          push_cast
          ring
        · rw [hget_ne v hv, occ_cons, if_neg (fun he => hv he.symm)]
          push_cast
          ring
      · rw [m1 v]
        by_cases hv : v = d
        · subst hv
          have hlhs : v ∈ acc ++ [v] :=
            List.mem_append.2 (Or.inr (List.mem_singleton.2 rfl))
          have hrhs : 0 < alistGet deg v ∧
              alistGet deg v = ((occ (v :: ds) v : Nat) : Int) := by
            rw [occ_cons, if_pos rfl]
            push_cast
            omega
          constructor
          · intro _
            exact Or.inr hrhs
          · intro _
            exact Or.inl hlhs
        · rw [hget_ne v hv, occ_cons, if_neg (fun he => hv he.symm)]
          simp only [List.mem_append, List.mem_singleton]
          constructor
          · rintro (⟨h | h⟩ | h)
            · exact Or.inl h
            · exact absurd h hv
            · right; omega
          · rintro (h | h)
            · exact Or.inl (Or.inl h)
            · right; omega
    · -- the decrement does not reach zero
      have hzlt : (1 : Int) < alistGet deg d := by omega
      have hstep : decrStep (deg, acc) d = (d1, acc) := by
        simp only [decrStep, ← hd1def]
        rw [if_neg (by omega)]
      have hacc1 : ∀ v ∈ acc, alistGet d1 v = 0 := by
        intro v hv
        have h0 := hacc v hv
        have hvd : v ≠ d := by
          intro he
          subst he
          omega
        rw [hget_ne v hvd]; exact h0
      rcases ih d1 acc hcnt1 hacc1 hnd hkeys2 with ⟨k1, g1, n1, m1⟩
      rw [hfold, hstep]
      refine ⟨by rw [k1, hkeys1], fun v => ?_, n1, fun v => ?_⟩
      · rw [g1 v]
        by_cases hv : v = d
        · subst hv
          rw [hget_d, occ_cons, if_pos rfl]
          push_cast
          ring
        · rw [hget_ne v hv, occ_cons, if_neg (fun he => hv he.symm)]
          push_cast
          ring
      · rw [m1 v]
        by_cases hv : v = d
        · subst hv
          rw [hget_d, occ_cons, if_pos rfl]
          have hna : v ∉ acc := by
            intro hmem
            have := hacc v hmem
            omega
          constructor
          · rintro (h | ⟨h1, h2⟩)
            · exact absurd h hna
            · right
              push_cast at h2 ⊢
              omega
          · rintro (h | ⟨h1, h2⟩)
            · exact absurd h hna
            · right
              push_cast at h2 ⊢
              omega
        · rw [hget_ne v hv, occ_cons, if_neg (fun he => hv he.symm)]
          simp

theorem foldl_flatMap {α β γ : Type} (f : γ → α → γ) (g : β → List α) :
    ∀ (l : List β) (init : γ),
      (l.flatMap g).foldl f init = l.foldl (fun acc u => (g u).foldl f acc) init := by
  intro l
  induction l with
  | nil => intro init; rfl
  | cons b t ih =>
    intro init
    rw [List.flatMap_cons, List.foldl_append, List.foldl_cons, ih]

theorem processLevel_eq (edges : List (String × String)) (deg : List (String × Int))
    (level : List String) :
    processLevel edges deg level =
      (level.flatMap (adjOf edges)).foldl decrStep (deg, []) := by
  rw [processLevel, foldl_flatMap]

theorem occ_adjOf (edges : List (String × String)) (u v : String) :
    occ (adjOf edges u) v = edges.countP (fun e => e.1 = u && e.2 = v) := by
  induction edges with
  | nil => rfl
  | cons e es ih =>
    rw [List.countP_cons]
    by_cases h1 : e.1 = u
    · have ha : adjOf (e :: es) u = e.2 :: adjOf es u := by
        simp [adjOf, List.filter_cons, h1]
      rw [ha, occ_cons, ih]
      by_cases h2 : e.2 = v <;> simp [h1, h2]
    · have ha : adjOf (e :: es) u = adjOf es u := by
        simp [adjOf, List.filter_cons, h1]
      rw [ha, ih]
      simp [h1]

theorem placedIn_singleton (edges : List (String × String)) (u v : String) :
    placedIn edges [u] v = edges.countP (fun e => e.1 = u && e.2 = v) := by
  induction edges with
  | nil => rfl
  | cons e es ih =>
    simp only [placedIn, List.countP_cons] at ih ⊢
    rw [ih]
    by_cases h1 : e.1 = u <;> by_cases h2 : e.2 = v <;> simp [h1, h2]

theorem placedIn_cons_src (edges : List (String × String)) (u : String)
    (rest : List String) (v : String) (hu : u ∉ rest) :
    placedIn edges (u :: rest) v =
      edges.countP (fun e => e.1 = u && e.2 = v) + placedIn edges rest v := by
  have h1 : u :: rest = [u] ++ rest := rfl
  rw [h1, placedIn_append edges [u] rest v, placedIn_singleton]
  intro x hx
  have hxu : x = u := by simpa using hx
  subst hxu
  exact hu

theorem occ_flatMap_adjOf (edges : List (String × String)) :
    ∀ (queue : List String), queue.Nodup → ∀ v,
      occ (queue.flatMap (adjOf edges)) v = placedIn edges queue v := by
  intro queue
  induction queue with
  | nil =>
    intro _ v
    simp [occ, placedIn]
  | cons u rest ih =>
    intro hnd v
    rcases List.nodup_cons.1 hnd with ⟨hu, hndr⟩
    rw [List.flatMap_cons, occ_append, occ_adjOf,
      placedIn_cons_src edges u rest v hu, ih hndr]

/-! ## The level-loop invariant -/

theorem kahnInv_init (agents : List String) (edges : List (String × String)) :
    KahnInv agents edges (degInit agents edges) (zeroKeys (degInit agents edges)) [] := by
  have hkeys_nd : ((degInit agents edges).map Prod.fst).Nodup := keys0_nodup agents edges
  refine ⟨rfl, ?_, ?_, ?_, ?_⟩
  · intro v
    rw [alistGet_degInit, placedIn_nil]
    ring
  · simpa using zeroKeys_nodup _ hkeys_nd
  · intro v hv
    simp only [List.nil_append] at hv
    exact zeroKeys_subset _ v hv
  · intro v hv
    simp only [List.nil_append]
    rw [mem_zeroKeys hkeys_nd]
    constructor
    · intro h
      exact ⟨hv, h⟩
    · intro h
      exact h.2

theorem kahnInv_sources_processed (agents : List String)
    (edges : List (String × String)) {deg : List (String × Int)}
    {queue processed : List String}
    (hInv : KahnInv agents edges deg queue processed) :
    ∀ e ∈ edges, e.2 ∈ queue → e.1 ∈ processed := by
  intro e he hq
  have hqk : e.2 ∈ keys0 agents edges :=
    hInv.mem_keys _ (List.mem_append.2 (Or.inr hq))
  have h0 : alistGet deg e.2 = 0 :=
    (hInv.zero_iff _ hqk).2 (List.mem_append.2 (Or.inr hq))
  have hdeq := hInv.deg_eq e.2
  have hle := placedIn_le_inCnt edges processed e.2
  have heq : placedIn edges processed e.2 = inCnt edges e.2 := by omega
  exact placedIn_full edges processed e.2 heq e he rfl

theorem kahnInv_step (agents : List String) (edges : List (String × String))
    {deg : List (String × Int)} {queue processed : List String}
    (hInv : KahnInv agents edges deg queue processed) :
    KahnInv agents edges (processLevel edges deg queue).1
      (processLevel edges deg queue).2 (processed ++ queue) := by
  have hqnd : queue.Nodup := (List.nodup_append.1 hInv.nodup).2.1
  have hdisj : ∀ x ∈ processed, x ∉ queue :=
    fun x hx => (List.nodup_append.1 hInv.nodup).2.2 hx
  have hocc : ∀ v, occ (queue.flatMap (adjOf edges)) v = placedIn edges queue v :=
    occ_flatMap_adjOf edges queue hqnd
  have hsplit : ∀ v, placedIn edges (processed ++ queue) v =
      placedIn edges processed v + placedIn edges queue v :=
    fun v => placedIn_append edges processed queue v hdisj
  have hcnt : ∀ v, (occ (queue.flatMap (adjOf edges)) v : Int) ≤ alistGet deg v := by
    intro v
    rw [hInv.deg_eq v, hocc v]
    have hle := placedIn_le_inCnt edges (processed ++ queue) v
    have := hsplit v
    omega
  have hkeysds : ∀ v ∈ queue.flatMap (adjOf edges), v ∈ deg.map Prod.fst := by
    intro v hv
    rw [hInv.keys_eq]
    rcases List.mem_flatMap.1 hv with ⟨u, _, hadj⟩
    rcases List.mem_map.1 hadj with ⟨e, hef, rfl⟩
    have he : e ∈ edges := (List.mem_filter.1 hef).1
    exact (mem_keys0 agents edges e.2).2 (Or.inr (List.mem_map.2 ⟨e, he, rfl⟩))
  rcases decr_run (queue.flatMap (adjOf edges)) deg [] hcnt (by simp) (by simp)
      hkeysds with ⟨hk, hg, hn, hm⟩
  have hm' : ∀ v, v ∈ ((queue.flatMap (adjOf edges)).foldl decrStep (deg, [])).2 ↔
      (0 < alistGet deg v ∧
        alistGet deg v = (occ (queue.flatMap (adjOf edges)) v : Int)) := by
    intro v
    rw [hm v]
    simp
  have hnonneg : ∀ v, 0 ≤ alistGet deg v := by
    intro v
    rw [hInv.deg_eq v]
    have := placedIn_le_inCnt edges processed v
    omega
  have hnext_not_old : ∀ v ∈ ((queue.flatMap (adjOf edges)).foldl decrStep (deg, [])).2,
      v ∉ processed ++ queue := by
    intro v hv hvold
    have hpos := ((hm' v).1 hv).1
    have hvk : v ∈ keys0 agents edges := hInv.mem_keys _ hvold
    have := (hInv.zero_iff _ hvk).2 hvold
    omega
  rw [processLevel_eq]
  refine ⟨by rw [hk, hInv.keys_eq], ?_, ?_, ?_, ?_⟩
  · intro v
    rw [hg v, hInv.deg_eq v, hocc v, hsplit v]
    push_cast
    ring
  · refine List.Nodup.append hInv.nodup hn ?_
    intro v hv hv2
    exact hnext_not_old v hv2 hv
  · intro v hv
    rcases List.mem_append.1 hv with hv | hv
    · exact hInv.mem_keys _ hv
    · have hpos := ((hm' v).1 hv).1
      have : v ∈ deg.map Prod.fst := alistGet_ne_zero_mem (by omega)
      rw [hInv.keys_eq] at this
      exact this
  · intro v hvk
    rw [hg v]
    constructor
    · intro h0
      by_cases hvz : alistGet deg v = 0
      · exact List.mem_append.2 (Or.inl ((hInv.zero_iff _ hvk).1 hvz))
      · have hpos : 0 < alistGet deg v := by
          have := hnonneg v
          omega
        refine List.mem_append.2 (Or.inr ((hm' v).2 ⟨hpos, ?_⟩))
        omega
    · intro hv
      rcases List.mem_append.1 hv with hv | hv
      · have hvz := (hInv.zero_iff _ hvk).2 hv
        have := hcnt v
        omega
      · have := (hm' v).1 hv
        omega

/-- Soundness of the level loop: with enough fuel it completes, the
invariant holds at the end with an empty queue, and every unit of level
`j` has all its incoming edges sourced in levels before `j`. -/
theorem kahnLoop_sound (agents : List String) (edges : List (String × String)) :
    ∀ (fuel : Nat) (deg : List (String × Int)) (queue processed : List String),
      KahnInv agents edges deg queue processed →
      (keys0 agents edges).length ≤ fuel + processed.length →
      ∃ levels degF, kahnLoop edges fuel deg queue = some levels ∧
        KahnInv agents edges degF [] (processed ++ levels.flatten) ∧
        (∀ e ∈ edges, ∀ j, ∀ hj : j < levels.length,
          e.2 ∈ levels.get ⟨j, hj⟩ →
            e.1 ∈ processed ++ (levels.take j).flatten) := by
  intro fuel
  induction fuel with
  | zero =>
    intro deg queue processed hInv hfuel
    have hlen : (processed ++ queue).length ≤ (keys0 agents edges).length :=
      (List.subperm_of_subset hInv.nodup (fun v hv => hInv.mem_keys v hv)).length_le
    rw [List.length_append] at hlen
    have hq : queue = [] := List.length_eq_zero.1 (by omega)
    subst hq
    refine ⟨[], deg, by simp [kahnLoop], by simpa using hInv, ?_⟩
    intro e _ j hj
    simp at hj
  | succ fuel ih =>
    intro deg queue processed hInv hfuel
    by_cases hq : queue.isEmpty
    · have hq' : queue = [] := List.isEmpty_iff.1 hq
      subst hq'
      refine ⟨[], deg, by simp [kahnLoop], by simpa using hInv, ?_⟩
      intro e _ j hj
      simp at hj
    · have hqlen : 1 ≤ queue.length := by
        cases queue with
        | nil => simp at hq
        | cons a t => simp
      have hInv2 := kahnInv_step agents edges hInv
      have hsrc := kahnInv_sources_processed agents edges hInv
      have hfuel2 : (keys0 agents edges).length ≤ fuel + (processed ++ queue).length := by
        rw [List.length_append]
        omega
      rcases ih _ _ _ hInv2 hfuel2 with ⟨rest, degF, hrun, hInvF, hord⟩
      refine ⟨queue :: rest, degF, ?_, ?_, ?_⟩
      · show kahnLoop edges (fuel + 1) deg queue = some (queue :: rest)
        rw [kahnLoop]
        rw [if_neg (by simpa using hq)]
        simp only [hrun]
      · have hflat : (queue :: rest).flatten = queue ++ rest.flatten := rfl
        rw [hflat, ← List.append_assoc]
        exact hInvF
      · intro e he j hj hmem
        cases j with
        | zero =>
          have h1 := hsrc e he (by simpa using hmem)
          simp only [List.take_zero, List.flatten_nil, List.append_nil]
          exact h1
        | succ j' =>
          have hj' : j' < rest.length := by simpa using hj
          have h1 := hord e he j' hj' (by simpa using hmem)
          have h2 : ((queue :: rest).take (j' + 1)).flatten =
              queue ++ (rest.take j').flatten := rfl
          rw [h2, ← List.append_assoc]
          exact h1

/-- Under a topological order of the edge relation, the finished run has
placed every key: any unplaced key would keep an unplaced in-neighbour of
strictly smaller index, an infinite descent. -/
theorem kahn_all_placed (agents : List String) (edges : List (String × String))
    {degF : List (String × Int)} {processedF : List String}
    (hInvF : KahnInv agents edges degF [] processedF)
    (hsrc : ∀ e ∈ edges, e.1 ∈ keys0 agents edges)
    (ord : List String)
    (hresp : ∀ e ∈ edges, ord.indexOf e.1 < ord.indexOf e.2) :
    ∀ v ∈ keys0 agents edges, v ∈ processedF := by
  have main : ∀ n, ∀ v, v ∈ keys0 agents edges → ord.indexOf v = n →
      v ∈ processedF := by
    intro n
    induction n using Nat.strong_induction_on with
    | _ n ihn =>
      intro v hvk hvn
      by_contra hvp
      have h0 : ¬ alistGet degF v = 0 := by
        intro h
        have := (hInvF.zero_iff v hvk).1 h
        rw [List.append_nil] at this
        exact hvp this
      have hdeq := hInvF.deg_eq v
      have hle := placedIn_le_inCnt edges processedF v
      have hlt : placedIn edges processedF v < inCnt edges v := by omega
      rcases placedIn_short edges processedF v hlt with ⟨e, he, hev, hout⟩
      have hwk : e.1 ∈ keys0 agents edges := hsrc e he
      have hwlt : ord.indexOf e.1 < n := by
        have hr := hresp e he
        rw [hev, hvn] at hr
        exact hr
      exact hout (ihn _ hwlt e.1 hwk rfl)
  intro v hvk
  exact main (ord.indexOf v) v hvk rfl

/-- A full run of the `while` loop of `topological_sort`, for a graph
whose edge sources are all keys and whose edges respect some linear
order: the loop succeeds, its levels enumerate the key set exactly once,
and all dependencies of a level sit in strictly earlier levels. -/
theorem kahn_run_complete (agents : List String) (edges : List (String × String))
    (hsrc : ∀ e ∈ edges, e.1 ∈ keys0 agents edges)
    (ord : List String)
    (hresp : ∀ e ∈ edges, ord.indexOf e.1 < ord.indexOf e.2) :
    ∃ levels,
      kahnLoop edges ((degInit agents edges).length + 1) (degInit agents edges)
        (zeroKeys (degInit agents edges)) = some levels ∧
      List.Perm levels.flatten (keys0 agents edges) ∧
      (∀ e ∈ edges, ∀ j, ∀ hj : j < levels.length,
        e.2 ∈ levels.get ⟨j, hj⟩ → e.1 ∈ (levels.take j).flatten) ∧
      levels.flatten.Nodup := by
  have hfuel : (keys0 agents edges).length ≤
      ((degInit agents edges).length + 1) + ([] : List String).length := by
    have : (keys0 agents edges).length = (degInit agents edges).length := by
      rw [keys0, List.length_map]
    omega
  rcases kahnLoop_sound agents edges ((degInit agents edges).length + 1)
      (degInit agents edges) (zeroKeys (degInit agents edges)) []
      (kahnInv_init agents edges) hfuel with ⟨levels, degF, hrun, hInvF, hord⟩
  rw [List.nil_append] at hInvF
  have hnd : levels.flatten.Nodup := by
    have := hInvF.nodup
    rwa [List.append_nil] at this
  have hsub : ∀ v ∈ levels.flatten, v ∈ keys0 agents edges := by
    intro v hv
    exact hInvF.mem_keys v (by rw [List.append_nil]; exact hv)
  have hsup : ∀ v ∈ keys0 agents edges, v ∈ levels.flatten :=
    kahn_all_placed agents edges hInvF hsrc ord hresp
  refine ⟨levels, hrun, ?_, ?_, hnd⟩
  · exact (List.perm_ext_iff_of_nodup hnd (keys0_nodup agents edges)).2
      (fun v => ⟨hsub v, hsup v⟩)
  · intro e he j hj hmem
    have := hord e he j hj hmem
    rwa [List.nil_append] at this

/-- Inside a run whose flattened levels have no duplicate, an edge whose
source sits in some earlier level than `j` and also in level `i` forces
`i < j`. -/
theorem levels_strict (levels : List (List String)) (hnd : levels.flatten.Nodup)
    (x : String) (i j : Nat) (hi : i < levels.length) (hj : j < levels.length)
    (h1 : x ∈ levels.get ⟨i, hi⟩)
    (hord : x ∈ (levels.take j).flatten) : i < j := by
  rcases List.mem_flatten.1 hord with ⟨l, hl, hxl⟩
  rcases List.mem_iff_get.1 hl with ⟨⟨k, hk⟩, hkeq⟩
  have hklen : k < min j levels.length := by
    simpa [List.length_take] using hk
  have hkj : k < j := lt_of_lt_of_le hklen (min_le_left _ _)
  have hkl : k < levels.length := lt_of_lt_of_le hklen (min_le_right _ _)
  have hget : (levels.take j).get ⟨k, hk⟩ = levels.get ⟨k, hkl⟩ :=
    (List.get_take levels hkl hkj).symm
  have hxk : x ∈ levels.get ⟨k, hkl⟩ := by
    rw [← hget, hkeq]
    exact hxl
  rcases List.nodup_flatten.1 hnd with ⟨_, hpair⟩
  have hdisj := List.pairwise_iff_get.1 hpair
  rcases lt_trichotomy i k with hik | hik | hik
  · exact absurd (hdisj ⟨i, hi⟩ ⟨k, hkl⟩ hik h1 hxk) (fun h => h)
  · subst hik
    exact hkj
  · exact absurd (hdisj ⟨k, hkl⟩ ⟨i, hi⟩ hik hxk h1) (fun h => h)

/-- Every run of `topological_sort`: the loop always succeeds (the fuel
is sufficient), the result is gated only by the level-count check, the
flattened levels are distinct keys, and dependencies sit strictly
earlier. -/
theorem topological_sort_spec (agents : List String) (edges : List (String × String)) :
    ∃ levels degF,
      kahnLoop edges ((degInit agents edges).length + 1) (degInit agents edges)
        (zeroKeys (degInit agents edges)) = some levels ∧
      topological_sort agents edges =
        (if (levels.map List.length).sum = agents.length then some levels else none) ∧
      KahnInv agents edges degF [] levels.flatten ∧
      (∀ e ∈ edges, ∀ j, ∀ hj : j < levels.length,
        e.2 ∈ levels.get ⟨j, hj⟩ → e.1 ∈ (levels.take j).flatten) ∧
      levels.flatten.Nodup := by
  have hfuel : (keys0 agents edges).length ≤
      ((degInit agents edges).length + 1) + ([] : List String).length := by
    have h : (keys0 agents edges).length = (degInit agents edges).length := by
      rw [keys0, List.length_map]
    omega
  rcases kahnLoop_sound agents edges ((degInit agents edges).length + 1)
      (degInit agents edges) (zeroKeys (degInit agents edges)) []
      (kahnInv_init agents edges) hfuel with ⟨levels, degF, hrun, hInvF, hord⟩
  rw [List.nil_append] at hInvF
  have hnd : levels.flatten.Nodup := by
    have := hInvF.nodup
    rwa [List.append_nil] at this
  refine ⟨levels, degF, hrun, ?_, hInvF, ?_, hnd⟩
  · rw [topological_sort]
    simp only [hrun]
  · intro e he j hj hmem
    have := hord e he j hj hmem
    rwa [List.nil_append] at this

/-- **C1**: for every acyclic graph whose edges all reference declared
unit ids, `topological_sort` returns levels whose concatenation is a
permutation of the unit ids (every unit exactly once), and every edge
goes from a strictly earlier level to a strictly later one — in
particular no edge connects two units of the same level. -/
theorem topological_sort_of_acyclic (agents : List String)
    (edges : List (String × String))
    (hnd : agents.Nodup)
    (href : ∀ e ∈ edges, e.1 ∈ agents ∧ e.2 ∈ agents)
    (hacy : Acyclic agents edges) :
    ∃ levels, topological_sort agents edges = some levels ∧
      List.Perm levels.flatten agents ∧
      (∀ e ∈ edges, ∀ i j, ∀ hi : i < levels.length, ∀ hj : j < levels.length,
        e.1 ∈ levels.get ⟨i, hi⟩ → e.2 ∈ levels.get ⟨j, hj⟩ → i < j) := by
  rcases hacy with ⟨ord, _, hordmem, hresp⟩
  have hkeys_agents : ∀ v, v ∈ keys0 agents edges ↔ v ∈ agents := by
    intro v
    rw [mem_keys0]
    constructor
    · rintro (h | h)
      · exact h
      · rcases List.mem_map.1 h with ⟨e, he, rfl⟩
        exact (href e he).2
    · exact Or.inl
  have hsrc : ∀ e ∈ edges, e.1 ∈ keys0 agents edges :=
    fun e he => (hkeys_agents e.1).2 (href e he).1
  rcases kahn_run_complete agents edges hsrc ord hresp with
    ⟨levels, hrun, hperm, hord, hndf⟩
  have hperm2 : List.Perm levels.flatten agents :=
    hperm.trans ((List.perm_ext_iff_of_nodup (keys0_nodup agents edges) hnd).2
      hkeys_agents)
  have hsum : (levels.map List.length).sum = agents.length := by
    rw [← List.length_flatten]
    exact hperm2.length_eq
  refine ⟨levels, ?_, hperm2, ?_⟩
  · rw [topological_sort]
    simp only [hrun]
    rw [if_pos hsum]
  · intro e he i j hi hj h1 h2
    exact levels_strict levels hndf e.1 i j hi hj h1 (hord e he j hj h2)

/-- Any path respects a linear order that all edges respect. -/
theorem epath_indexOf_lt (edges : List (String × String)) (ord : List String)
    (hresp : ∀ e ∈ edges, ord.indexOf e.1 < ord.indexOf e.2) :
    ∀ {u v : String}, EPath edges u v → ord.indexOf u < ord.indexOf v := by
  intro u v hp
  induction hp with
  | single h => exact hresp _ h
  | cons h _ ih => exact lt_trans (hresp _ h) ih

/-- An order-respected edge list carries no cycle. -/
theorem no_epath_cycle_of_resp (edges : List (String × String)) (ord : List String)
    (hresp : ∀ e ∈ edges, ord.indexOf e.1 < ord.indexOf e.2) :
    ¬ ∃ v, EPath edges v v := by
  rintro ⟨v, hp⟩
  exact lt_irrefl _ (epath_indexOf_lt edges ord hresp hp)

theorem unknownRefErrors_nil_iff (agents : List String) :
    ∀ edges : List (String × String),
      unknownRefErrors agents edges = [] ↔
        ∀ e ∈ edges, e.1 ∈ agents ∧ e.2 ∈ agents := by
  intro edges
  induction edges with
  | nil => simp [unknownRefErrors]
  | cons e rest ih =>
    by_cases h1 : e.1 ∈ agents <;> by_cases h2 : e.2 ∈ agents <;>
      simp [unknownRefErrors, h1, h2, ih]

/-- Every node of a path is an edge endpoint. -/
theorem epath_endpoints (edges : List (String × String)) :
    ∀ {u v : String}, EPath edges u v →
      (∃ e ∈ edges, e.1 = u) ∧ (∃ e ∈ edges, e.2 = v) := by
  intro u v hp
  induction hp with
  | single h => exact ⟨⟨_, h, rfl⟩, ⟨_, h, rfl⟩⟩
  | cons h _ ih => exact ⟨⟨_, h, rfl⟩, ih.2⟩

/-- A complete placement turns a path into a strict increase of level
indices; a cycle therefore forbids complete placement. -/
theorem epath_levels_lt (edges : List (String × String))
    (levels : List (List String)) (hndf : levels.flatten.Nodup)
    (hord : ∀ e ∈ edges, ∀ j, ∀ hj : j < levels.length,
      e.2 ∈ levels.get ⟨j, hj⟩ → e.1 ∈ (levels.take j).flatten)
    (hall : ∀ e ∈ edges, e.2 ∈ levels.flatten) :
    ∀ {u v : String}, EPath edges u v →
      ∀ i j, ∀ hi : i < levels.length, ∀ hj : j < levels.length,
        u ∈ levels.get ⟨i, hi⟩ → v ∈ levels.get ⟨j, hj⟩ → i < j := by
  intro u v hp
  induction hp with
  | single h =>
    intro i j hi hj hu hv
    exact levels_strict levels hndf _ i j hi hj hu (hord _ h j hj hv)
  | cons h p ih =>
    rename_i u1 v1 w1
    intro i j hi hj hu hv
    have hw : v1 ∈ levels.flatten := hall _ h
    rcases List.mem_flatten.1 hw with ⟨l, hl, hwl⟩
    rcases List.mem_iff_get.1 hl with ⟨⟨k, hk⟩, hkeq⟩
    have hwk : v1 ∈ levels.get ⟨k, hk⟩ := by
      rw [hkeq]
      exact hwl
    have h1 : i < k :=
      levels_strict levels hndf _ i k hi hk hu (hord _ h k hk hwk)
    have h2 : k < j := ih k j hk hj hwk hv
    omega

/-- A cycle through declared units makes `topological_sort` raise the
circular-dependency `ValueError`. -/
theorem topological_sort_none_of_cycle (agents : List String)
    (edges : List (String × String))
    (href : ∀ e ∈ edges, e.1 ∈ agents ∧ e.2 ∈ agents)
    (hcyc : ∃ v, EPath edges v v) :
    topological_sort agents edges = none := by
  rcases topological_sort_spec agents edges with
    ⟨levels, degF, _, heq, hInvF, hord, hndf⟩
  by_cases hsum : (levels.map List.length).sum = agents.length
  · exfalso
    -- with the count check passing, every agent is placed
    have hsub : ∀ v ∈ levels.flatten, v ∈ agents := by
      intro v hv
      have hk := hInvF.mem_keys v (by rw [List.append_nil]; exact hv)
      rw [mem_keys0] at hk
      rcases hk with h | h
      · exact h
      · rcases List.mem_map.1 h with ⟨e, he, rfl⟩
        exact (href e he).2
    have hsp1 : levels.flatten.Subperm agents :=
      List.subperm_of_subset hndf hsub
    have hlen : levels.flatten.length = agents.length := by
      rw [List.length_flatten]
      exact hsum
    have hperm : List.Perm levels.flatten agents :=
      hsp1.perm_of_length_le (by omega)
    have hall : ∀ e ∈ edges, e.2 ∈ levels.flatten :=
      fun e he => hperm.mem_iff.2 (href e he).2
    rcases hcyc with ⟨v, hp⟩
    have hv : v ∈ levels.flatten := by
      rcases (epath_endpoints edges hp).2 with ⟨e, he, hev⟩
      exact hev ▸ hall e he
    rcases List.mem_flatten.1 hv with ⟨l, hl, hvl⟩
    rcases List.mem_iff_get.1 hl with ⟨⟨i, hi⟩, hieq⟩
    have hvi : v ∈ levels.get ⟨i, hi⟩ := by
      rw [hieq]
      exact hvl
    exact lt_irrefl i
      (epath_levels_lt edges levels hndf hord hall hp i i hi hi hvi hvi)
  · rw [heq, if_neg hsum]

theorem indexOf_append_not_mem {a : String} {l1 l2 : List String} (h : a ∉ l1) :
    (l1 ++ l2).indexOf a = l1.length + l2.indexOf a := by
  induction l1 with
  | nil => simp
  | cons b t ih =>
    have hb : (b == a) = false := by
      have : b ≠ a := fun he => h (he ▸ List.mem_cons_self b t)
      simpa using this
    have hnt : a ∉ t := fun ht => h (List.mem_cons_of_mem b ht)
    rw [List.cons_append, List.indexOf_cons, hb]
    simp only [cond_false, ih hnt, List.length_cons]
    omega

theorem indexOf_append_mem {a : String} {l1 l2 : List String} (h : a ∈ l1) :
    (l1 ++ l2).indexOf a = l1.indexOf a :=
  List.indexOf_append_of_mem h

/-! ## Validation result shape -/

theorem validate_workflow_errors_eq (agents : List String)
    (edges : List (String × String)) :
    (validate_workflow agents edges).errors =
      (match topological_sort agents edges with
        | some _ => unknownRefErrors agents edges
        | none =>
          unknownRefErrors agents edges ++
            ["Circular dependency detected in workflow"]) := rfl

theorem validate_workflow_valid_eq (agents : List String)
    (edges : List (String × String)) :
    (validate_workflow agents edges).valid =
      (validate_workflow agents edges).errors.isEmpty := rfl

theorem validate_workflow_errors_of_cycle (agents : List String)
    (edges : List (String × String)) (hcyc : ∃ v, EPath edges v v) :
    (validate_workflow agents edges).errors ≠ [] := by
  rw [validate_workflow_errors_eq]
  by_cases href : unknownRefErrors agents edges = []
  · have hre := (unknownRefErrors_nil_iff agents edges).1 href
    rw [topological_sort_none_of_cycle agents edges hre hcyc]
    simp
  · cases htop : topological_sort agents edges
    · simp only []
      intro hcontra
      exact href (List.append_eq_nil.1 hcontra).1
    · simpa using href

theorem mem_unknownRefErrors_dst (agents : List String) :
    ∀ (edges : List (String × String)) (e : String × String), e ∈ edges →
      e.2 ∉ agents →
      ("Edge references unknown agent: " ++ e.2) ∈ unknownRefErrors agents edges := by
  intro edges
  induction edges with
  | nil =>
    intro e h
    simp at h
  | cons e0 rest ih =>
    intro e he hna
    rcases List.mem_cons.1 he with rfl | he'
    · simp [unknownRefErrors, hna]
    · simp only [unknownRefErrors, List.mem_append]
      exact Or.inr (ih e he' hna)

theorem execute_workflow_error_of_invalid
    (att : String → AgentInput → Nat → AttemptOut) (w : Workflow)
    (files : List String)
    (h : (validate_workflow (w.agents.map (fun a => a.id)) w.edges).valid = false) :
    execute_workflow att w files =
      Except.error ("Invalid workflow: " ++ String.intercalate "; "
        (validate_workflow (w.agents.map (fun a => a.id)) w.edges).errors) := by
  rw [execute_workflow]
  simp [h]

/-- Witness for C1 on the diamond graph. -/
theorem topological_sort_of_acyclic_witness :
    ∃ levels, topological_sort ["A", "B", "C", "D"]
        [("A", "B"), ("A", "C"), ("B", "D"), ("C", "D")] = some levels ∧
      List.Perm levels.flatten ["A", "B", "C", "D"] ∧
      (∀ e ∈ [("A", "B"), ("A", "C"), ("B", "D"), ("C", "D")], ∀ i j,
        ∀ hi : i < levels.length, ∀ hj : j < levels.length,
        e.1 ∈ levels.get ⟨i, hi⟩ → e.2 ∈ levels.get ⟨j, hj⟩ → i < j) :=
  topological_sort_of_acyclic ["A", "B", "C", "D"]
    [("A", "B"), ("A", "C"), ("B", "D"), ("C", "D")]
    (by decide) (by decide)
    ⟨["A", "B", "C", "D"], by decide, fun a => Iff.rfl, by decide⟩

/-- **C3**: a graph holding a dependency cycle fails validation with at
least one error (`valid = false`), and `execute_workflow` raises on it
regardless of what any unit invocation would do (so before any unit is
invoked); the cycle surfaces as a validation error, while the
`topological_sort` calls inside validation never themselves leak an
exception out of `validate_workflow`. -/
theorem cycle_fails_validation_and_blocks_execution (w : Workflow)
    (hcyc : ∃ v, EPath w.edges v v) :
    (validate_workflow (w.agents.map (fun a => a.id)) w.edges).errors ≠ [] ∧
    (validate_workflow (w.agents.map (fun a => a.id)) w.edges).valid = false ∧
    ∀ (att : String → AgentInput → Nat → AttemptOut) (files : List String),
      ∃ msg, execute_workflow att w files = Except.error msg := by
  have herr := validate_workflow_errors_of_cycle (w.agents.map (fun a => a.id))
    w.edges hcyc
  have hvalid : (validate_workflow (w.agents.map (fun a => a.id)) w.edges).valid
      = false := by
    rw [validate_workflow_valid_eq]
    exact List.isEmpty_eq_false.2 herr
  exact ⟨herr, hvalid, fun att files =>
    ⟨_, execute_workflow_error_of_invalid att w files hvalid⟩⟩

/-- Witness for C3 on the two-node cycle A ⇄ B. -/
theorem cycle_fails_validation_witness :
    (validate_workflow ["A", "B"] [("A", "B"), ("B", "A")]).errors ≠ [] ∧
    (validate_workflow ["A", "B"] [("A", "B"), ("B", "A")]).valid = false ∧
    ∃ msg, execute_workflow (fun _ _ _ => AttemptOut.ret "done")
      { name := "cyc",
        agents := [{ id := "A", name := "A", task := "t", inputs := [] },
                   { id := "B", name := "B", task := "t", inputs := [] }],
        edges := [("A", "B"), ("B", "A")] } [] = Except.error msg := by
  have hp : EPath [("A", "B"), ("B", "A")] "A" "A" :=
    EPath.cons (show ("A", "B") ∈ [("A", "B"), ("B", "A")] by decide)
      (EPath.single (show ("B", "A") ∈ [("A", "B"), ("B", "A")] by decide))
  have h := cycle_fails_validation_and_blocks_execution
    { name := "cyc",
      agents := [{ id := "A", name := "A", task := "t", inputs := [] },
                 { id := "B", name := "B", task := "t", inputs := [] }],
      edges := [("A", "B"), ("B", "A")] }
    ⟨"A", hp⟩
  exact ⟨h.1, h.2.1, h.2.2 (fun _ _ _ => AttemptOut.ret "done") []⟩

/-- **C9**: extending an acyclic, fully-declared graph with one edge from
a declared unit `s` to an undeclared id `x` makes `topological_sort`
raise the circular-dependency `ValueError` although the extended graph
has no cycle; `validate_workflow` then reports both the unknown-agent
error for `x` and the circular-dependency error. -/
theorem dangling_destination_counts_as_cycle (agents : List String)
    (edges : List (String × String)) (s x : String)
    (hnd : agents.Nodup)
    (href : ∀ e ∈ edges, e.1 ∈ agents ∧ e.2 ∈ agents)
    (hacy : Acyclic agents edges)
    (hs : s ∈ agents) (hx : x ∉ agents) :
    topological_sort agents (edges ++ [(s, x)]) = none ∧
    (¬ ∃ v, EPath (edges ++ [(s, x)]) v v) ∧
    ("Edge references unknown agent: " ++ x) ∈
      (validate_workflow agents (edges ++ [(s, x)])).errors ∧
    "Circular dependency detected in workflow" ∈
      (validate_workflow agents (edges ++ [(s, x)])).errors := by
  rcases hacy with ⟨ord, hordnd, hordmem, hresp⟩
  have hxord : x ∉ ord := fun h => hx ((hordmem x).1 h)
  have hresp' : ∀ e ∈ edges ++ [(s, x)],
      (ord ++ [x]).indexOf e.1 < (ord ++ [x]).indexOf e.2 := by
    intro e he
    rcases List.mem_append.1 he with he | he
    · have h1 : e.1 ∈ ord := (hordmem e.1).2 (href e he).1
      have h2 : e.2 ∈ ord := (hordmem e.2).2 (href e he).2
      rw [indexOf_append_mem h1, indexOf_append_mem h2]
      exact hresp e he
    · have hesx : e = (s, x) := by simpa using he
      subst hesx
      have h1 : (s, x).1 ∈ ord := (hordmem s).2 hs
      rw [indexOf_append_mem h1, indexOf_append_not_mem hxord]
      have hlt := List.indexOf_lt_length.2 h1
      have h0 : List.indexOf x [x] = 0 := by
        simp [List.indexOf_cons]
      omega
  have hsrc' : ∀ e ∈ edges ++ [(s, x)], e.1 ∈ keys0 agents (edges ++ [(s, x)]) := by
    intro e he
    rw [mem_keys0]
    left
    rcases List.mem_append.1 he with he | he
    · exact (href e he).1
    · have hesx : e = (s, x) := by simpa using he
      subst hesx
      exact hs
  rcases kahn_run_complete agents (edges ++ [(s, x)]) hsrc' (ord ++ [x]) hresp'
    with ⟨levels, hrun, hperm, _, _⟩
  have hkeys : List.Perm (keys0 agents (edges ++ [(s, x)])) (agents ++ [x]) := by
    refine (List.perm_ext_iff_of_nodup (keys0_nodup _ _) ?_).2 ?_
    · simp [List.nodup_append, hnd, hx]
    · intro v
      rw [mem_keys0]
      have hmapsnd : (edges ++ [(s, x)]).map Prod.snd =
          edges.map Prod.snd ++ [x] := by
        simp
      rw [hmapsnd]
      simp only [List.mem_append, List.mem_singleton]
      constructor
      · rintro (h | h | h)
        · exact Or.inl h
        · rcases List.mem_map.1 h with ⟨e, he, rfl⟩
          exact Or.inl (href e he).2
        · exact Or.inr h
      · rintro (h | h)
        · exact Or.inl h
        · exact Or.inr (Or.inr h)
  have hsum : (levels.map List.length).sum = agents.length + 1 := by
    rw [← List.length_flatten, (hperm.trans hkeys).length_eq, List.length_append]
    simp
  have hnone : topological_sort agents (edges ++ [(s, x)]) = none := by
    rw [topological_sort]
    simp only [hrun]
    rw [if_neg (by omega)]
  refine ⟨hnone, no_epath_cycle_of_resp _ _ hresp', ?_, ?_⟩
  · rw [validate_workflow_errors_eq, hnone]
    simp only [List.mem_append]
    left
    exact mem_unknownRefErrors_dst agents (edges ++ [(s, x)]) (s, x)
      (List.mem_append.2 (Or.inr (List.mem_singleton.2 rfl))) hx
  · rw [validate_workflow_errors_eq, hnone]
    simp

/-- Witness for C9: A → B, plus the dangling edge B → X. -/
theorem dangling_destination_witness :
    topological_sort ["A", "B"] ([("A", "B")] ++ [("B", "X")]) = none ∧
    (¬ ∃ v, EPath ([("A", "B")] ++ [("B", "X")]) v v) ∧
    ("Edge references unknown agent: " ++ "X") ∈
      (validate_workflow ["A", "B"] ([("A", "B")] ++ [("B", "X")])).errors ∧
    "Circular dependency detected in workflow" ∈
      (validate_workflow ["A", "B"] ([("A", "B")] ++ [("B", "X")])).errors :=
  dangling_destination_counts_as_cycle ["A", "B"] [("A", "B")] "B" "X"
    (by decide) (by decide) ⟨["A", "B"], by decide, fun a => Iff.rfl, by decide⟩
    (by decide) (by decide)

/-! ## The retry state machine -/

/-- One failing attempt advances the loop to the next strategy, recording
the attempt's error in the history. -/
theorem retryGo_fail_step (a : Nat → AttemptOut) (maxR rem attempt : Nat)
    (lastE : String) (hist : List HistEntry) (hf : attemptFails (a attempt)) :
    retryGo a maxR (rem + 1) attempt lastE hist =
      retryGo a maxR rem (attempt + 1) (errOf (a attempt))
        (hist ++ [⟨attempt, strategyFor attempt, errOf (a attempt)⟩]) := by
  cases ha : a attempt with
  | raised m =>
    simp [retryGo, ha, errOf]
  | ret o =>
    rw [ha] at hf
    have hfo : is_execution_successful o = false := hf
    simp [retryGo, ha, errOf, hfo]

/-- **C4**: with the default limit of 5 attempts, a unit whose first four
attempts fail and whose fifth returns an output with execution signals
yields a success result on attempt 5, and the error history holds exactly
four entries with attempt numbers 1, 2, 3, 4 and the strategy names
`normal`, `fix_obvious`, `web_search`, `rewrite`, in that order. -/
theorem retry_four_failures_then_success (a : Nat → AttemptOut) (out5 : String)
    (h1 : attemptFails (a 1)) (h2 : attemptFails (a 2)) (h3 : attemptFails (a 3))
    (h4 : attemptFails (a 4)) (h5 : a 5 = AttemptOut.ret out5)
    (h5s : is_execution_successful out5 = true) :
    execute_agent_with_retry a none =
      (RetryResult.success out5 5,
       [⟨1, "normal", errOf (a 1)⟩, ⟨2, "fix_obvious", errOf (a 2)⟩,
        ⟨3, "web_search", errOf (a 3)⟩, ⟨4, "rewrite", errOf (a 4)⟩]) := by
  show retryGo a 5 5 1 "None" [] = _
  rw [show (5 : Nat) = 4 + 1 from rfl, retryGo_fail_step a 5 4 1 "None" [] h1,
    retryGo_fail_step a 5 3 2 _ _ h2, retryGo_fail_step a 5 2 3 _ _ h3,
    retryGo_fail_step a 5 1 4 _ _ h4, retryGo, h5]
  simp [h5s, strategyFor]

/-- Witness for C4: four raising attempts, then a signalled success. -/
theorem retry_four_failures_then_success_witness :
    execute_agent_with_retry
        (fun k => if k = 5 then AttemptOut.ret "report created"
          else AttemptOut.raised ("e" ++ Nat.repr k)) none =
      (RetryResult.success "report created" 5,
       [⟨1, "normal", "e1"⟩, ⟨2, "fix_obvious", "e2"⟩,
        ⟨3, "web_search", "e3"⟩, ⟨4, "rewrite", "e4"⟩]) :=
  retry_four_failures_then_success
    (fun k => if k = 5 then AttemptOut.ret "report created"
      else AttemptOut.raised ("e" ++ Nat.repr k))
    "report created" trivial trivial trivial trivial rfl (by decide)

/-- **C6**: an output with none of the concrete-completion signals is
classified unsuccessful — regardless of description phrases — and a
non-raising attempt returning such an output is treated as a failure:
the loop records the description error and moves to the next strategy. -/
theorem no_signal_is_failure (output : String)
    (hnosig : ∀ s ∈ execution_signs, strContains (lowerStr output) s = false)
    (a : Nat → AttemptOut) (maxR rem k : Nat) (lastE : String)
    (hist : List HistEntry) (hk : a k = AttemptOut.ret output) :
    is_execution_successful output = false ∧
    retryGo a maxR (rem + 1) k lastE hist =
      retryGo a maxR rem (k + 1) descMsg
        (hist ++ [⟨k, strategyFor k, descMsg⟩]) := by
  have hany : execution_signs.any (fun s => strContains (lowerStr output) s) = false := by
    rw [List.any_eq_false]
    intro s hs
    simp [hnosig s hs]
  have hcls : is_execution_successful output = false := by
    rw [is_execution_successful]
    simp only [hany, Bool.false_and]
  exact ⟨hcls, by simp [retryGo, hk, hcls]⟩

/-- Witness for C6 on a purely descriptive output. -/
theorem no_signal_is_failure_witness :
    is_execution_successful "you should follow the steps" = false ∧
    retryGo (fun _ => AttemptOut.ret "you should follow the steps") 5 (4 + 1) 1
        "None" [] =
      retryGo (fun _ => AttemptOut.ret "you should follow the steps") 5 4 (1 + 1)
        descMsg ([] ++ [⟨1, strategyFor 1, descMsg⟩]) :=
  no_signal_is_failure "you should follow the steps" (by decide)
    (fun _ => AttemptOut.ret "you should follow the steps") 5 4 1 "None" [] rfl

/-! ## Capability cleanup -/

/-- Counterexample to C5 as stated: an attempt whose execution raises
releases nothing — the freshly created vector collection flagged
`cleanup_required` is not deleted, although a successful attempt with the
same tools would delete it. -/
theorem cleanup_skipped_on_exception :
    (execute_agent [⟨"vector_db", "col1", true⟩] (Except.error "ConnectionError")).2
      = [] ∧
    "col1" ∉
      (execute_agent [⟨"vector_db", "col1", true⟩]
        (Except.error "ConnectionError")).2 ∧
    (execute_agent [⟨"vector_db", "col1", true⟩] (Except.ok "done")).2
      = ["col1"] := by
  exact ⟨rfl, by decide, rfl⟩

/-- **C5** (amended): capabilities are released exactly by the attempts
whose execution completes without raising — such an attempt deletes every
flagged vector-index collection; an attempt that raises deletes none. -/
theorem cleanup_only_without_exception (tools : List PTool) :
    (∀ out : String,
      (execute_agent tools (Except.ok out)).2 = cleanup_tools tools ∧
      ∀ t ∈ tools, t.cleanup_required = true → t.ptype = "vector_db" →
        t.collection_name ∈ (execute_agent tools (Except.ok out)).2) ∧
    (∀ msg : String, (execute_agent tools (Except.error msg)).2 = []) := by
  refine ⟨fun out => ⟨rfl, ?_⟩, fun msg => rfl⟩
  intro t ht hc hv
  show t.collection_name ∈ cleanup_tools tools
  exact List.mem_map.2 ⟨t, List.mem_filter.2 ⟨ht, by simp [hc, hv]⟩, rfl⟩

/-- Witness for the amended C5. -/
theorem cleanup_only_without_exception_witness :
    (execute_agent [⟨"vector_db", "c9idx", true⟩] (Except.ok "done")).2 =
      cleanup_tools [⟨"vector_db", "c9idx", true⟩] ∧
    "c9idx" ∈ (execute_agent [⟨"vector_db", "c9idx", true⟩] (Except.ok "done")).2 ∧
    (execute_agent [⟨"vector_db", "c9idx", true⟩] (Except.error "boom")).2 = [] := by
  have h := cleanup_only_without_exception [⟨"vector_db", "c9idx", true⟩]
  exact ⟨(h.1 "done").1,
    (h.1 "done").2 ⟨"vector_db", "c9idx", true⟩ (by decide) rfl rfl, h.2 "boom"⟩

/-! ## The end-to-end diamond scenario -/

/-- **C2** (code-bug evidence): on the diamond graph the scheduler yields
levels `[[A], [B, C], [D]]`; with B raising on every attempt and A, C, D
succeeding, the run still executes the last level — D's built input holds
C's real output together with the failure payload stored under B
(`"Failed after 5 attempts. Last error: boom"`), and D's success output
is stored — but the execution's final status is `"completed"`:
`execute_agent_with_retry` returns its failure as a dict rather than
raising, so the `isinstance(result, Exception)` branch that would set
`status = "failed"` is never taken, contradicting the claimed `failed`
status. -/
theorem diamond_scenario_run :
    topological_sort ["A", "B", "C", "D"]
        [("A", "B"), ("A", "C"), ("B", "D"), ("C", "D")] =
      some [["A"], ["B", "C"], ["D"]] ∧
    (build_agent_input agentD diamondCtx2.1 []).deps =
      [("input_from_B", CtxVal.out (JVal.s bFailMsg)),
       ("input_from_C", CtxVal.out (JVal.s (okOut "C")))] ∧
    (execute_workflow diamondAtt diamondWorkflow []).toOption.map
        (fun r => (r.status, alookup r.outputs "B", alookup r.outputs "D")) =
      some ("completed", some (CtxVal.out (JVal.s bFailMsg)),
        some (CtxVal.out (JVal.s (okOut "D")))) :=
  ⟨rfl, rfl, rfl⟩

/-! ## The collection-name sanitizer -/

theorem subDisallowed_allowed (l : List Char) :
    ∀ c ∈ subDisallowed l, isAllowedChar c = true := by
  intro c hc
  rcases List.mem_map.1 hc with ⟨c0, _, rfl⟩
  by_cases h : isAllowedChar c0 = true
  · rw [if_pos h]
    exact h
  · rw [if_neg h]
    decide

theorem stripEnds_subset (l : List Char) : ∀ c ∈ stripEnds l, c ∈ l := by
  intro c hc
  rw [stripEnds, List.mem_reverse] at hc
  have h1 : c ∈ (l.dropWhile (fun c => !isAsciiAlnum c)).reverse :=
    (List.dropWhile_sublist _).subset hc
  rw [List.mem_reverse] at h1
  exact (List.dropWhile_sublist _).subset h1

theorem collapseUndAux_subset :
    ∀ (l : List Char) (b : Bool), ∀ c ∈ collapseUndAux b l, c ∈ l := by
  intro l
  induction l with
  | nil =>
    intro b c hc
    simp [collapseUndAux] at hc
  | cons a t ih =>
    intro b c hc
    rw [collapseUndAux] at hc
    by_cases ha : a = '_'
    · rw [if_pos ha] at hc
      by_cases hb : b = true
      · rw [if_pos hb] at hc
        exact List.mem_cons_of_mem _ (ih true c hc)
      · rw [if_neg hb] at hc
        rcases List.mem_cons.1 hc with rfl | hc
        · rw [ha]
          exact List.mem_cons_self _ _
        · exact List.mem_cons_of_mem _ (ih true c hc)
    · rw [if_neg ha] at hc
      rcases List.mem_cons.1 hc with rfl | hc
      · exact List.mem_cons_self _ _
      · exact List.mem_cons_of_mem _ (ih false c hc)

/-- The final three transformations of the sanitizer, on any collapsed
list of allowed characters. -/
theorem sanitize_steps (s3 : List Char)
    (hall : ∀ c ∈ s3, isAllowedChar c = true) :
    ∀ s4 s5 s6 : List Char,
      s4 = (if s3.isEmpty || !isAsciiAlnum (s3.headD ' ') then
        ("col_".data ++ s3) else s3) →
      s5 = s4.take 63 →
      s6 = (if s5.length < 3 then s5 ++ "_db".data else s5) →
      (∀ c ∈ s6, isAllowedChar c = true) ∧ 3 ≤ s6.length ∧ s6.length ≤ 63 ∧
        ∃ c0 rest, s6 = c0 :: rest ∧ isAsciiAlnum c0 = true := by
  intro s4 s5 s6 h4 h5 h6
  have hall4 : ∀ c ∈ s4, isAllowedChar c = true := by
    subst h4
    by_cases hcond : (s3.isEmpty || !isAsciiAlnum (s3.headD ' ')) = true
    · rw [if_pos hcond]
      intro c hc
      rcases List.mem_append.1 hc with hc | hc
      · have hc4 : c = 'c' ∨ c = 'o' ∨ c = 'l' ∨ c = '_' := by
          simpa using hc
        rcases hc4 with rfl | rfl | rfl | rfl <;> decide
      · exact hall c hc
    · rw [if_neg hcond]
      exact hall
  have hhead4 : ∃ c0 rest, s4 = c0 :: rest ∧ isAsciiAlnum c0 = true := by
    subst h4
    by_cases hcond : (s3.isEmpty || !isAsciiAlnum (s3.headD ' ')) = true
    · rw [if_pos hcond]
      exact ⟨'c', "ol_".data ++ s3, rfl, by decide⟩
    · rw [if_neg hcond]
      have hcond2 : s3.isEmpty = false ∧ isAsciiAlnum (s3.headD ' ') = true := by
        simpa using hcond
      rcases hcond2 with ⟨hne, halnum⟩
      cases s3 with
      | nil => simp at hne
      | cons c0 rest => exact ⟨c0, rest, rfl, by simpa using halnum⟩
  have hall5 : ∀ c ∈ s5, isAllowedChar c = true := by
    subst h5
    intro c hc
    exact hall4 c ((List.take_sublist _ _).subset hc)
  have hlen5 : s5.length ≤ 63 := by
    subst h5
    rw [List.length_take]
    omega
  have hhead5 : ∃ c0 rest, s5 = c0 :: rest ∧ isAsciiAlnum c0 = true := by
    rcases hhead4 with ⟨c0, rest, he, ha⟩
    subst h5
    rw [he, show (63 : Nat) = 62 + 1 from rfl, List.take_succ_cons]
    exact ⟨c0, rest.take 62, rfl, ha⟩
  by_cases hshort : s5.length < 3
  · rw [if_pos hshort] at h6
    subst h6
    refine ⟨?_, ?_, ?_, ?_⟩
    · intro c hc
      rcases List.mem_append.1 hc with hc | hc
      · exact hall5 c hc
      · have hc3 : c = '_' ∨ c = 'd' ∨ c = 'b' := by simpa using hc
        rcases hc3 with rfl | rfl | rfl <;> decide
    · rw [List.length_append]
      simp
    · rw [List.length_append]
      have : ("_db".data).length = 3 := rfl
      omega
    · rcases hhead5 with ⟨c0, rest, he, ha⟩
      rw [he]
      exact ⟨c0, rest ++ "_db".data, rfl, ha⟩
  · rw [if_neg hshort] at h6
    subst h6
    exact ⟨hall5, by omega, hlen5, hhead5⟩

/-- Counterexample to C7 as stated: the input `"///"` (all characters
outside the allowed set) sanitizes to `"col_"`, which ends in an
underscore, not an alphanumeric character. -/
theorem sanitize_collection_name_counterexample :
    sanitize_collection_name "///" = "col_" ∧
    "col_".data.getLast? = some '_' ∧
    isAsciiAlnum '_' = false := by
  refine ⟨rfl, rfl, by decide⟩

/-- **C7** (amended): for every input the sanitizer returns a name over
`[a-zA-Z0-9._-]`, of length between 3 and 63, starting with an
alphanumeric character; the result need not end alphanumeric in general,
but for the input `"agent 1/report:final"` it does
(`"agent_1_report_final"`). -/
theorem sanitize_collection_name_props :
    (∀ name : String,
      (∀ c ∈ (sanitize_collection_name name).data, isAllowedChar c = true) ∧
      3 ≤ (sanitize_collection_name name).length ∧
      (sanitize_collection_name name).length ≤ 63 ∧
      ∃ c0 rest, (sanitize_collection_name name).data = c0 :: rest ∧
        isAsciiAlnum c0 = true) ∧
    sanitize_collection_name "agent 1/report:final" = "agent_1_report_final" ∧
    "agent_1_report_final".data.getLast? = some 'l' ∧
    isAsciiAlnum 'l' = true := by
  refine ⟨?_, rfl, rfl, by decide⟩
  intro name
  have hall3 : ∀ c ∈ collapseUnd (stripEnds (subDisallowed name.data)),
      isAllowedChar c = true := by
    intro c hc
    exact subDisallowed_allowed name.data c
      (stripEnds_subset _ c (collapseUndAux_subset _ false c hc))
  exact sanitize_steps (collapseUnd (stripEnds (subDisallowed name.data)))
    hall3 _ _ _ rfl rfl rfl

/-- Witness for the amended C7, at the quoted input. -/
theorem sanitize_collection_name_props_witness :
    (∀ c ∈ (sanitize_collection_name "agent 1/report:final").data,
      isAllowedChar c = true) ∧
    3 ≤ (sanitize_collection_name "agent 1/report:final").length ∧
    (sanitize_collection_name "agent 1/report:final").length ≤ 63 ∧
    ∃ c0 rest, (sanitize_collection_name "agent 1/report:final").data =
      c0 :: rest ∧ isAsciiAlnum c0 = true :=
  sanitize_collection_name_props.1 "agent 1/report:final"

/-! ## Port allocation -/

theorem findPort_spec (free : Nat → Bool) (allocated : List Nat) :
    ∀ (ports : List Nat) (p : Nat), findPort free allocated ports = some p →
      p ∈ ports ∧ p ∉ allocated ∧ free p = true := by
  intro ports
  induction ports with
  | nil =>
    intro p h
    simp [findPort] at h
  | cons q rest ih =>
    intro p h
    rw [findPort] at h
    by_cases hq : q ∈ allocated
    · rw [if_pos hq] at h
      rcases ih p h with ⟨h1, h2, h3⟩
      exact ⟨List.mem_cons_of_mem _ h1, h2, h3⟩
    · rw [if_neg hq] at h
      by_cases hf : free q = true
      · rw [if_pos hf] at h
        cases h
        exact ⟨List.mem_cons_self _ _, hq, hf⟩
      · rw [if_neg hf] at h
        rcases ih p h with ⟨h1, h2, h3⟩
        exact ⟨List.mem_cons_of_mem _ h1, h2, h3⟩

theorem findPort_eq_none_iff (free : Nat → Bool) (allocated : List Nat) :
    ∀ ports : List Nat, findPort free allocated ports = none ↔
      ∀ p ∈ ports, p ∈ allocated ∨ free p = false := by
  intro ports
  induction ports with
  | nil => simp [findPort]
  | cons q rest ih =>
    rw [findPort]
    by_cases hq : q ∈ allocated
    · rw [if_pos hq]
      rw [ih]
      constructor
      · intro h p hp
        rcases List.mem_cons.1 hp with rfl | hp
        · exact Or.inl hq
        · exact h p hp
      · intro h p hp
        exact h p (List.mem_cons_of_mem _ hp)
    · rw [if_neg hq]
      by_cases hf : free q = true
      · rw [if_pos hf]
        constructor
        · intro h
          cases h
        · intro h
          rcases h q (List.mem_cons_self _ _) with h1 | h1
          · exact absurd h1 hq
          · rw [hf] at h1
            cases h1
      · rw [if_neg hf]
        rw [ih]
        constructor
        · intro h p hp
          rcases List.mem_cons.1 hp with rfl | hp
          · exact Or.inr (by simpa using hf)
          · exact h p hp
        · intro h p hp
          exact h p (List.mem_cons_of_mem _ hp)

theorem countP_avail_erase (free : Nat → Bool) (allocated : List Nat) (p0 : Nat) :
    ∀ l : List Nat, l.Nodup → p0 ∈ l → p0 ∉ allocated → free p0 = true →
      l.countP (fun p => free p && decide (p ∉ allocated ++ [p0])) + 1 =
        l.countP (fun p => free p && decide (p ∉ allocated)) := by
  intro l
  induction l with
  | nil =>
    intro _ h
    simp at h
  | cons a t ih =>
    intro hnd hmem hout hfree
    rcases List.nodup_cons.1 hnd with ⟨hat, hndt⟩
    rw [List.countP_cons, List.countP_cons]
    rcases List.mem_cons.1 hmem with heq | hmem2
    · subst heq
      have hnew : (free p0 && decide (p0 ∉ allocated ++ [p0])) = false := by
        simp
      have hold : (free p0 && decide (p0 ∉ allocated)) = true := by
        simp [hfree, hout]
      rw [hnew, hold]
      have heqt : t.countP (fun p => free p && decide (p ∉ allocated ++ [p0])) =
          t.countP (fun p => free p && decide (p ∉ allocated)) := by
        refine List.countP_congr (fun x hx => ?_)
        have hxa : x ≠ p0 := fun he => hat (he ▸ hx)
        simp [hxa]
      rw [heqt]
      simp
    · have hap0 : a ≠ p0 := fun he => hat (he ▸ hmem2)
      have hpred : (free a && decide (a ∉ allocated ++ [p0])) =
          (free a && decide (a ∉ allocated)) := by
        simp [hap0]
      rw [hpred]
      have hrec := ih hndt hmem2 hout hfree
      by_cases hX : (free a && decide (a ∉ allocated)) = true
      · simp only [hX, if_pos]
        omega
      · rw [if_neg hX]
        omega

theorem portRange_nodup : portRange.Nodup := List.nodup_range' 8501 99

theorem availCount_after_alloc (free : Nat → Bool) (allocated : List Nat)
    (p0 : Nat) (hmem : p0 ∈ portRange) (hout : p0 ∉ allocated)
    (hfree : free p0 = true) :
    availCount free (allocated ++ [p0]) + 1 = availCount free allocated :=
  countP_avail_erase free allocated p0 portRange portRange_nodup hmem hout hfree

theorem find_available_port_some (free : Nat → Bool) (allocated : List Nat)
    (h : 0 < availCount free allocated) :
    ∃ p, find_available_port free allocated = some (p, allocated ++ [p]) ∧
      p ∈ portRange ∧ p ∉ allocated ∧ free p = true := by
  cases hf : findPort free allocated portRange with
  | none =>
    exfalso
    have hall := (findPort_eq_none_iff free allocated portRange).1 hf
    have : availCount free allocated = 0 := by
      rw [availCount, List.countP_eq_zero]
      intro p hp
      rcases hall p hp with h1 | h1
      · simp [h1]
      · simp [h1]
    omega
  | some p =>
    rcases findPort_spec free allocated portRange p hf with ⟨h1, h2, h3⟩
    refine ⟨p, ?_, h1, h2, h3⟩
    rw [find_available_port, hf]

theorem allocPorts_sound (free : Nat → Bool) :
    ∀ (n : Nat) (allocated : List Nat),
      n ≤ availCount free allocated →
      ∃ ps allocatedF, allocPorts free n allocated = some (ps, allocatedF) ∧
        ps.Nodup ∧ ps.length = n ∧ allocatedF = allocated ++ ps ∧
        ∀ p ∈ ps, p ∈ portRange ∧ p ∉ allocated ∧ free p = true := by
  intro n
  induction n with
  | zero =>
    intro allocated _
    refine ⟨[], allocated, rfl, List.nodup_nil, rfl, by simp, ?_⟩
    intro p hp
    simp at hp
  | succ n ihn =>
    intro allocated hle
    rcases find_available_port_some free allocated (by omega) with
      ⟨p0, hfind, hmem, hout, hfree⟩
    have hcount := availCount_after_alloc free allocated p0 hmem hout hfree
    rcases ihn (allocated ++ [p0]) (by omega) with
      ⟨ps, allocatedF, hrec, hnd, hlen, hF, hprops⟩
    refine ⟨p0 :: ps, allocatedF, ?_, ?_, by simp [hlen], ?_, ?_⟩
    · rw [allocPorts, hfind]
      simp [hrec]
    · rw [List.nodup_cons]
      refine ⟨fun hmem2 => ?_, hnd⟩
      have := (hprops p0 hmem2).2.1
      simp at this
    · rw [hF, List.append_assoc]
      rfl
    · intro p hp
      rcases List.mem_cons.1 hp with rfl | hp
      · exact ⟨hmem, hout, hfree⟩
      · rcases hprops p hp with ⟨q1, q2, q3⟩
        refine ⟨q1, fun hc => q2 (List.mem_append.2 (Or.inl hc)), q3⟩

/-- **C8**: each allocation returns a port of 8501–8599 that is free and
distinct from every allocated, not-yet-released port, committing it to
the allocated set; `n` successive allocations against at least `n`
available ports yield `n` distinct ports; and when no port of the pool is
both free and unallocated, allocation fails with the `RuntimeError`
rather than returning an already-allocated port. -/
theorem port_allocation_correct (free : Nat → Bool) (allocated : List Nat) :
    (∀ p allocated2, find_available_port free allocated = some (p, allocated2) →
      8501 ≤ p ∧ p ≤ 8599 ∧ p ∉ allocated ∧ free p = true ∧
        allocated2 = allocated ++ [p]) ∧
    (∀ n, n ≤ availCount free allocated →
      ∃ ps allocatedF, allocPorts free n allocated = some (ps, allocatedF) ∧
        ps.Nodup ∧ ps.length = n ∧
        ∀ p ∈ ps, 8501 ≤ p ∧ p ≤ 8599 ∧ p ∉ allocated ∧ free p = true) ∧
    (availCount free allocated = 0 →
      find_available_port free allocated = none) := by
  refine ⟨?_, ?_, ?_⟩
  · intro p allocated2 h
    rw [find_available_port] at h
    cases hf : findPort free allocated portRange with
    | none =>
      rw [hf] at h
      cases h
    | some q =>
      rw [hf] at h
      simp only [Option.some.injEq, Prod.mk.injEq] at h
      obtain ⟨h1eq, h2eq⟩ := h
      subst h1eq
      subst h2eq
      rcases findPort_spec free allocated portRange _ hf with ⟨h1, h2, h3⟩
      have hrange := List.mem_range'_1.1 h1
      exact ⟨by omega, by omega, h2, h3, rfl⟩
  · intro n hn
    rcases allocPorts_sound free n allocated hn with
      ⟨ps, allocatedF, hrun, hnd, hlen, _, hprops⟩
    refine ⟨ps, allocatedF, hrun, hnd, hlen, ?_⟩
    intro p hp
    rcases hprops p hp with ⟨h1, h2, h3⟩
    have hrange := List.mem_range'_1.1 h1
    exact ⟨by omega, by omega, h2, h3⟩
  · intro h0
    rw [find_available_port]
    cases hf : findPort free allocated portRange with
    | none => rfl
    | some q =>
      exfalso
      rcases findPort_spec free allocated portRange q hf with ⟨h1, h2, h3⟩
      have : 0 < availCount free allocated := by
        rw [availCount, List.countP_pos_iff]
        exact ⟨q, h1, by simp [h2, h3]⟩
      omega

/-- Witness for C8: an all-free pool allocates 8501 first and three
distinct ports for three requests; an all-busy pool raises. -/
theorem port_allocation_correct_witness :
    (8501 ≤ 8501 ∧ 8501 ≤ 8599 ∧ (8501 : Nat) ∉ ([] : List Nat) ∧
      (fun _ : Nat => true) 8501 = true ∧
      [8501] = ([] : List Nat) ++ [8501]) ∧
    (∃ ps allocatedF,
      allocPorts (fun _ => true) 3 [] = some (ps, allocatedF) ∧ ps.Nodup ∧
        ps.length = 3 ∧
        ∀ p ∈ ps, 8501 ≤ p ∧ p ≤ 8599 ∧ p ∉ ([] : List Nat) ∧
          (fun _ : Nat => true) p = true) ∧
    find_available_port (fun _ => false) [] = none := by
  have h1 := (port_allocation_correct (fun _ => true) []).1 8501 [8501] rfl
  have h2 := (port_allocation_correct (fun _ => true) []).2.1 3
    (by set_option maxRecDepth 4000 in decide)
  have h3 := (port_allocation_correct (fun _ => false) []).2.2
    (by set_option maxRecDepth 4000 in decide)
  exact ⟨h1, h2, h3⟩

/-! ## Stopping a service -/

/-- **C10**: `stop_service` is atomic on failure — an unknown service id
returns `False` with the state untouched; an exception from process
termination returns `False` with the record still registered and its port
still allocated; only a successful termination returns `True`, removes
the record and releases the port. -/
theorem stop_service_atomic (st : MgrState) (service_id : String) :
    (alookup st.active service_id = none →
      ∀ termRaises, stop_service termRaises st service_id = (false, st)) ∧
    (∀ svc, alookup st.active service_id = some svc →
      stop_service true st service_id = (false, st) ∧
      stop_service false st service_id =
        (true, { active := st.active.filter (fun p => !(p.1 = service_id)),
                 allocated := st.allocated.erase svc.port })) ∧
    (∀ termRaises st2, stop_service termRaises st service_id = (true, st2) →
      termRaises = false ∧
        ∃ svc, alookup st.active service_id = some svc ∧
          st2 = { active := st.active.filter (fun p => !(p.1 = service_id)),
                  allocated := st.allocated.erase svc.port }) := by
  refine ⟨?_, ?_, ?_⟩
  · intro h termRaises
    rw [stop_service, h]
  · intro svc h
    constructor
    · rw [stop_service, h]
      rfl
    · rw [stop_service, h]
      rfl
  · intro termRaises st2 h
    rw [stop_service] at h
    cases hl : alookup st.active service_id with
    | none =>
      rw [hl] at h
      simp at h
    | some svc =>
      rw [hl] at h
      cases termRaises with
      | true => simp at h
      | false =>
        simp only [Bool.false_eq_true, if_false, Prod.mk.injEq, true_and] at h
        exact ⟨rfl, svc, rfl, h.symm⟩

/-- Witness for C10 on a one-service state. -/
theorem stop_service_atomic_witness :
    (stop_service true
        { active := [("svc1", ⟨8501, 42⟩)], allocated := [8501] } "svc1" =
      (false, { active := [("svc1", ⟨8501, 42⟩)], allocated := [8501] })) ∧
    stop_service false
        { active := [("svc1", ⟨8501, 42⟩)], allocated := [8501] } "svc1" =
      (true, { active := [], allocated := [] }) ∧
    stop_service false
        { active := [("svc1", ⟨8501, 42⟩)], allocated := [8501] } "missing" =
      (false, { active := [("svc1", ⟨8501, 42⟩)], allocated := [8501] }) := by
  have h := stop_service_atomic
    { active := [("svc1", ⟨8501, 42⟩)], allocated := [8501] } "svc1"
  have h2 := stop_service_atomic
    { active := [("svc1", ⟨8501, 42⟩)], allocated := [8501] } "missing"
  have hs := (h.2.1 ⟨8501, 42⟩ rfl)
  exact ⟨hs.1, hs.2, h2.1 rfl false⟩
